import Mathlib

/-!
# command-not-found-handler: a shallow embedding of `command-not-found-handler.c`

The development follows the single C source file.

* A C string is modelled by the list of its bytes before the terminating NUL
  (`List Char`; the program only ever compares bytes for equality).
* `char` cells of the table `memo` are 8 bits wide.  Whether `char` is signed is
  implementation-defined (signed on x86, unsigned on ARM), so every function that
  depends on it takes a flag `sgn : Bool` (`true` = signed `char`).  Stores of an out
  of range `int` into a `char` wrap modulo `2^8` (`wrapChar`).
* `int` lengths are modelled by `Nat`: a length that does not fit an `int` would need
  a table larger than any stack.
* The `float` quotient returned by `get_similarity` is modelled by the exact rational
  quotient (`Score.finite`); a zero divisor gives the IEEE values `nan`, `posInf`,
  `negInf`.  The test `> 0.7` is modelled by the exact comparison with `7/10`: for the
  divisors below `PATH_MAX` that `compare_name` can pass, rounding the quotient to
  `float` does not change the outcome of the comparison with the `double` constant.
-/

namespace CommandNotFound

/-! ## Section 1: the similarity scorer (`get_similarity`, source lines 46-74) -/

/-- The value obtained when the `int` value `v` is stored in a `char`:
reduction modulo `2^8` into `[-128, 127]` (signed `char`) or `[0, 255]` (unsigned `char`). -/
def wrapChar (sgn : Bool) (v : Int) : Int :=
  if sgn then (v + 128) % 256 - 128 else v % 256

/-- The two-dimensional array `char memo[str1_len + 1][str2_len + 1]`, as the function
from a pair of indices to the value of the cell. -/
abbrev Table := Nat → Nat → Int

/-- The assignment `memo[i][j] = v`. -/
def Table.set (memo : Table) (i j : Nat) (v : Int) : Table :=
  fun i' j' => if i' = i ∧ j' = j then v else memo i' j'

/-- The loop `for (int k = 0; k < n; k++) s = body k s`. -/
def forLoop {σ : Type} : Nat → (Nat → σ → σ) → σ → σ
  | 0, _, s => s
  | n + 1, body, s => body n (forLoop n body s)

/-- The byte `str[i]` of a C string; the byte at index `strlen(str)` is the terminator. -/
def charAt (str : List Char) (i : Nat) : Char :=
  str.getD i (Char.ofNat 0)

/-- The body of the inner loop (source lines 64-69) for indices `i`, `j`. -/
def cellStep (sgn : Bool) (str1 str2 : List Char) (i j : Nat) (memo : Table) : Table :=
  let memo := memo.set (i + 1) (j + 1) (memo i j)
  if charAt str1 i ≠ charAt str2 j then
    let memo := if memo (i + 1) j < memo (i + 1) (j + 1)
      then memo.set (i + 1) (j + 1) (memo (i + 1) j) else memo
    let memo := if memo i (j + 1) < memo (i + 1) (j + 1)
      then memo.set (i + 1) (j + 1) (memo i (j + 1)) else memo
    memo.set (i + 1) (j + 1) (wrapChar sgn (memo (i + 1) (j + 1) + 1))
  else memo

/-- The table after `memset` and the three loops of source lines 57-71. -/
def fillMemo (sgn : Bool) (str1 str2 : List Char) : Table :=
  let str1_len := str1.length
  let str2_len := str2.length
  let memo : Table := fun _ _ => 0
  let memo := forLoop str1_len (fun i memo => memo.set (i + 1) 0 (wrapChar sgn (i + 1))) memo
  let memo := forLoop str2_len (fun j memo => memo.set 0 (j + 1) (wrapChar sgn (j + 1))) memo
  forLoop str1_len (fun i memo => forLoop str2_len (fun j memo => cellStep sgn str1 str2 i j memo) memo) memo

/-- The value of a C `float` expression `n / (float) d` with integers `n`, `d`:
the quotient when `d` is not zero, and otherwise an infinity or NaN. -/
inductive Score where
  | finite (q : ℚ)
  | posInf
  | negInf
  | nan
  deriving DecidableEq

/-- The C expression `n / (float) d` for integers `n` and `d ≥ 0`. -/
def floatDiv (n : Int) (d : Nat) : Score :=
  if d = 0 then
    if n = 0 then Score.nan else if 0 < n then Score.posInf else Score.negInf
  else Score.finite ((n : ℚ) / (d : ℚ))

/-- The function `get_similarity` (source lines 46-74). -/
def get_similarity (sgn : Bool) (str1 str2 : List Char) : Score :=
  let str1_len := str1.length
  let str2_len := str2.length
  let memo := fillMemo sgn str1 str2
  floatDiv ((str1_len : Int) - memo str1_len str2_len) str1_len

/-- The C test `score > 0.7`. -/
def Score.exceeds : Score → Bool
  | Score.finite q => decide ((7 : ℚ) / 10 < q)
  | Score.posInf => true
  | Score.negInf => false
  | Score.nan => false

/-- The reference Levenshtein edit distance the table is compared with (it follows the
words of the specification, not the source): unit-cost deletion, insertion and
substitution, by the usual three-way minimum on the first bytes. -/
def lev : List Char → List Char → Nat
  | [], b => b.length
  | a, [] => a.length
  | x :: a, y :: b =>
    min (lev a (y :: b) + 1) (min (lev (x :: a) b + 1) (lev a b + if x = y then 0 else 1))
termination_by a b => a.length + b.length

/-- The value the inner loop body leaves in `memo[i + 1][j + 1]`, from the diagonal
cell `d = memo[i][j]`, the left cell `l = memo[i + 1][j]`, the upper cell
`u = memo[i][j + 1]` and the outcome `ne` of the test `str1[i] != str2[j]`. -/
def cellValue (sgn : Bool) (d l u : Int) (ne : Bool) : Int :=
  if ne then
    let v := d
    let v := if l < v then l else v
    let v := if u < v then u else v
    wrapChar sgn (v + 1)
  else d

/-- Row `i + 1` of the final table as a function of row `i`. -/
def nextRow (sgn : Bool) (str1 str2 : List Char) (i : Nat) (prev : Nat → Int) : Nat → Int
  | 0 => wrapChar sgn (i + 1)
  | j + 1 =>
    cellValue sgn (prev j) (nextRow sgn str1 str2 i prev j) (prev (j + 1))
      (decide (charAt str1 i ≠ charAt str2 j))

/-- The content of `memo[i][j]` when `get_similarity` reads the result, given as a
recurrence over the rows (shown equal to `fillMemo` in `fillMemo_eq`). -/
def memoCell (sgn : Bool) (str1 str2 : List Char) : Nat → Nat → Int
  | 0 => fun j => wrapChar sgn j
  | i + 1 => nextRow sgn str1 str2 i (memoCell sgn str1 str2 i)

/-! ## Section 2: the manifest scanner (`compare_name`, source lines 76-129)

The C library and the file system are modelled as far as the program observes them:

* `basename` is the POSIX function of `<libgen.h>`;
* `fgets(buf, PATH_MAX, fp)` delivers the file in buffers of at most `PATH_MAX - 1`
  bytes, each ending after a newline, when full, or at the end of the file;
* an access outside an array is undefined behaviour and ends the run with
  `Fault.undefined`; `exit(errno)` ends it with `Fault.exit`;
* `nftw` calls `compare_name` on a list of entries, which is a parameter. -/

/-- The terminating byte of a C string. -/
def NUL : Char := Char.ofNat 0

/-- The constant `PATH_MAX` of `<linux/limits.h>`. -/
def PATH_MAX : Nat := 4096

/-- The array `cmd_search_path` (source lines 35-38). -/
def cmd_search_path : List (List Char) :=
  ["/usr/local/bin".toList, "/usr/local/sbin".toList]

/-- The string literal `".filelist"`. -/
def dotFilelist : List Char := ".filelist".toList

/-- The ways a run ends other than by returning. -/
inductive Fault where
  | exit (status : Nat)
  | undefined
  deriving DecidableEq, Repr

/-- The type flag `nftw` passes to its callback. -/
inductive Flag where
  | FTW_F | FTW_D | FTW_DNR | FTW_NS | FTW_SL | FTW_DP | FTW_SLN
  deriving DecidableEq, Repr

/-- One call of the callback by `nftw`: the path, the type flag, the bytes
`fopen(path, "r")` would deliver (`none` when `fopen` returns `NULL`), and the value
`errno` has after a failed `stat` or `fopen` on the path. -/
structure Entry where
  path : List Char
  flag : Flag
  file : Option (List Char)
  errno : Nat

/-- The global variables of the program (source lines 40-43), the two arrays as flat
row-major memory (entry `i` of `exact_matches` starts at byte `30 * i`, entry `i` of
`fuzzy_matches` at byte `100 * i`), together with the trace `opened` of the paths
given to `fopen`, which the program does not hold and which is kept to state what it
opened. -/
structure State where
  total_fuzzy_matches : Nat
  total_exact_matches : Nat
  fuzzy_matches : List Char
  exact_matches : List Char
  opened : List (List Char)
  deriving DecidableEq

/-- The zero-initialised globals at program start: `char fuzzy_matches[10][100]` and
`char exact_matches[5][30]`. -/
def State.initial : State :=
  { total_fuzzy_matches := 0
    total_exact_matches := 0
    fuzzy_matches := List.replicate 1000 NUL
    exact_matches := List.replicate 150 NUL
    opened := [] }

/-- The arrays have their declared sizes. -/
def State.WF (st : State) : Prop :=
  st.fuzzy_matches.length = 1000 ∧ st.exact_matches.length = 150

instance (st : State) : Decidable st.WF := by
  unfold State.WF; infer_instance

/-- Removal of trailing slashes. -/
def stripTrailingSlashes (s : List Char) : List Char :=
  (s.reverse.dropWhile (fun c => c == '/')).reverse

/-- The part of a path after its last slash. -/
def lastComponent (s : List Char) : List Char :=
  (s.reverse.takeWhile (fun c => c != '/')).reverse

/-- POSIX `basename`: `"."` for the empty string, `"/"` for a string of slashes, and
otherwise the last component after removal of trailing slashes. -/
def basename (s : List Char) : List Char :=
  if s = [] then ['.']
  else
    let t := stripTrailingSlashes s
    if t = [] then ['/'] else lastComponent t

/-- The bytes `strncpy(dst, src, n)` writes: the first `n` bytes of `src`, padded with
NUL up to `n` bytes (and not terminated when `src` has `n` bytes or more). -/
def strncpy (src : List Char) (n : Nat) : List Char :=
  src.take n ++ List.replicate (n - src.length) NUL

/-- The bytes `snprintf(dst, n, ...)` writes for the formatted text `text`: at most
`n - 1` bytes of it and a terminator. -/
def snprintf (n : Nat) (text : List Char) : List Char :=
  text.take (n - 1) ++ [NUL]

/-- The text of the format `"Command '%s' from package %s"`. -/
def fuzzy_text (cmdName pkgName : List Char) : List Char :=
  "Command '".toList ++ cmdName ++ "' from package ".toList ++ pkgName

/-- Memory `mem` after `bytes` are written at offset `off`. -/
def store (mem : List Char) (off : Nat) (bytes : List Char) : List Char :=
  mem.take off ++ bytes ++ mem.drop (off + bytes.length)

/-- The C string that starts at offset `off` of `mem` (what `%s` prints); `none` when no
terminator follows inside `mem`. -/
def cstrAt (mem : List Char) (off : Nat) : Option (List Char) :=
  let rest := mem.drop off
  if NUL ∈ rest then some (rest.takeWhile (fun c => c != NUL)) else none

/-- The string `exact_matches[i]`. -/
def State.exact_entry (st : State) (i : Nat) : Option (List Char) :=
  cstrAt st.exact_matches (30 * i)

/-- The string `fuzzy_matches[i]`. -/
def State.fuzzy_entry (st : State) (i : Nat) : Option (List Char) :=
  cstrAt st.fuzzy_matches (100 * i)

/-- The statement `strncpy(exact_matches[total_exact_matches++], pkgName, 30)`
(source line 110). -/
def record_exact (pkgName : List Char) (st : State) : Except Fault State :=
  if st.total_exact_matches < 5 then
    Except.ok { st with
      exact_matches := store st.exact_matches (30 * st.total_exact_matches) (strncpy pkgName 30)
      total_exact_matches := st.total_exact_matches + 1 }
  else Except.error Fault.undefined

/-- The statement `snprintf(fuzzy_matches[total_fuzzy_matches++], 100, ...)`
(source line 113). -/
def record_fuzzy (cmdName pkgName : List Char) (st : State) : Except Fault State :=
  if st.total_fuzzy_matches < 10 then
    Except.ok { st with
      fuzzy_matches := store st.fuzzy_matches (100 * st.total_fuzzy_matches)
        (snprintf 100 (fuzzy_text cmdName pkgName))
      total_fuzzy_matches := st.total_fuzzy_matches + 1 }
  else Except.error Fault.undefined

/-- The body of the `if` of source lines 101-117, for a buffer that begins with one of
the search paths: cut at the first newline, take the base name, compare. -/
def match_line (sgn : Bool) (cmd_to_search pkgName buf : List Char) (st : State) :
    Except Fault State :=
  let buf := buf.takeWhile (fun c => c != '\n')
  let cmdName := basename buf
  if cmdName = cmd_to_search then record_exact pkgName st
  else if (get_similarity sgn cmdName cmd_to_search).exceeds then
    record_fuzzy cmdName pkgName st
  else Except.ok st

/-- The loop `for (int i = 0; i < 2; i++)` of source lines 99-118 over the search
paths still to be tried; the first path that is a prefix of the buffer ends the loop. -/
def try_paths (sgn : Bool) (cmd_to_search pkgName buf : List Char) (st : State) :
    List (List Char) → Except Fault State
  | [] => Except.ok st
  | dir :: rest =>
    if dir.isPrefixOf buf then match_line sgn cmd_to_search pkgName buf st
    else try_paths sgn cmd_to_search pkgName buf st rest

/-- The body of the `while` loop (source lines 99-118) for one buffer read by `fgets`. -/
def compare_line (sgn : Bool) (cmd_to_search pkgName buf : List Char) (st : State) :
    Except Fault State :=
  try_paths sgn cmd_to_search pkgName buf st cmd_search_path

/-- The successive buffers `fgets(buf, cap + 1, fp)` returns for a file with the bytes
given, `cur` being the bytes of the current buffer read so far. -/
def fgets_buffers (cap : Nat) : List Char → List Char → List (List Char)
  | [], cur => if cur = [] then [] else [cur]
  | c :: rest, cur =>
    if c = '\n' ∨ cur.length + 1 = cap then (cur ++ [c]) :: fgets_buffers cap rest []
    else fgets_buffers cap rest (cur ++ [c])

/-- The C string held by a buffer: its bytes before the first NUL. -/
def cstr (bytes : List Char) : List Char :=
  bytes.takeWhile (fun c => c != NUL)

/-- The loop `while (fgets(buf, sizeof(buf), fp) != NULL)` over the buffers to come. -/
def read_lines (sgn : Bool) (cmd_to_search pkgName : List Char) :
    List (List Char) → State → Except Fault State
  | [], st => Except.ok st
  | buf :: rest, st =>
    match compare_line sgn cmd_to_search pkgName (cstr buf) st with
    | Except.ok st' => read_lines sgn cmd_to_search pkgName rest st'
    | Except.error f => Except.error f

/-- The package name of source lines 95-96: the base name of the path is copied with
`strncpy(pkgName, ..., PATH_MAX)` and cut at its first `'.'`; undefined when `strchr`
finds no `'.'` inside the array. -/
def package_name (path : List Char) : Except Fault (List Char) :=
  let base := basename path
  let name := base.takeWhile (fun c => c != '.')
  if name.length < base.length ∧ name.length < PATH_MAX then Except.ok name
  else Except.error Fault.undefined

/-- The callback `compare_name` (source lines 76-129) for one entry of the walk; the
result is the returned `int` and the new state.  For a path of fewer than 9 bytes the
pointer `path + strlen(path) - 9` of source line 83 lies before the string, and the
`strcmp` on it is undefined. -/
def compare_name (sgn : Bool) (cmd_to_search : List Char) (e : Entry) (st : State) :
    Except Fault (Int × State) :=
  match e.flag with
  | Flag.FTW_F | Flag.FTW_SL | Flag.FTW_SLN =>
    if e.path.length < 9 then Except.error Fault.undefined
    else if e.path.drop (e.path.length - 9) ≠ dotFilelist then Except.ok (0, st)
    else
      let st := { st with opened := st.opened ++ [e.path] }
      match e.file with
      | none => Except.error (Fault.exit e.errno)
      | some bytes =>
        match package_name e.path with
        | Except.error f => Except.error f
        | Except.ok pkgName =>
          match read_lines sgn cmd_to_search pkgName (fgets_buffers (PATH_MAX - 1) bytes []) st with
          | Except.error f => Except.error f
          | Except.ok st' => Except.ok (0, st')
  | Flag.FTW_NS => Except.error (Fault.exit e.errno)
  | _ => Except.ok (0, st)

/-- The call `nftw(filelist_path, compare_name, 100, FTW_PHYS | FTW_MOUNT)` (source
line 141) for the entries the walk visits, in order; the walk stops when the callback
returns a value other than 0. -/
def nftw (sgn : Bool) (cmd_to_search : List Char) : List Entry → State → Except Fault State
  | [], st => Except.ok st
  | e :: rest, st =>
    match compare_name sgn cmd_to_search e st with
    | Except.error f => Except.error f
    | Except.ok (r, st') => if r = 0 then nftw sgn cmd_to_search rest st' else Except.ok st'

/-- The scan of a tree from the initial globals. -/
def scan (sgn : Bool) (cmd_to_search : List Char) (entries : List Entry) : Except Fault State :=
  nftw sgn cmd_to_search entries State.initial

/-- The exact-match sequence of `st'` is that of `st` with the entry `name` appended. -/
def State.appendsExact (st st' : State) (name : List Char) : Prop :=
  st'.total_exact_matches = st.total_exact_matches + 1 ∧
  st'.exact_entry st.total_exact_matches = some name ∧
  st'.exact_matches.take (30 * st.total_exact_matches) =
    st.exact_matches.take (30 * st.total_exact_matches)

instance (st st' : State) (name : List Char) : Decidable (st.appendsExact st' name) := by
  unfold State.appendsExact; infer_instance

/-- The fuzzy-match sequence of `st'` is that of `st` with the entry `text` appended. -/
def State.appendsFuzzy (st st' : State) (text : List Char) : Prop :=
  st'.total_fuzzy_matches = st.total_fuzzy_matches + 1 ∧
  st'.fuzzy_entry st.total_fuzzy_matches = some text ∧
  st'.fuzzy_matches.take (100 * st.total_fuzzy_matches) =
    st.fuzzy_matches.take (100 * st.total_fuzzy_matches)

instance (st st' : State) (text : List Char) : Decidable (st.appendsFuzzy st' text) := by
  unfold State.appendsFuzzy; infer_instance

/-- The exact-match count and array are the same in `st` and `st'`. -/
def State.sameExact (st st' : State) : Prop :=
  st'.total_exact_matches = st.total_exact_matches ∧ st'.exact_matches = st.exact_matches

instance (st st' : State) : Decidable (st.sameExact st') := by
  unfold State.sameExact; infer_instance

/-- The fuzzy-match count and array are the same in `st` and `st'`. -/
def State.sameFuzzy (st st' : State) : Prop :=
  st'.total_fuzzy_matches = st.total_fuzzy_matches ∧ st'.fuzzy_matches = st.fuzzy_matches

instance (st st' : State) : Decidable (st.sameFuzzy st') := by
  unfold State.sameFuzzy; infer_instance

/-- The flags for which `compare_name` looks at the path: `FTW_F`, `FTW_SL`, `FTW_SLN`. -/
def Flag.isFile : Flag → Bool
  | Flag.FTW_F | Flag.FTW_SL | Flag.FTW_SLN => true
  | _ => false

/-- An entry that is no manifest: not a failed `stat`, and when it is a file or symbolic
link, a path of at least 9 bytes that does not end in `.filelist`. -/
def Entry.passedOver (e : Entry) : Prop :=
  e.flag ≠ Flag.FTW_NS ∧ (e.flag.isFile = true → 9 ≤ e.path.length) ∧
    ¬ dotFilelist <:+ e.path

instance (e : Entry) : Decidable e.passedOver := by
  unfold Entry.passedOver; infer_instance

/-- A command name of 4081 bytes. -/
def longCommand : List Char := List.replicate 4080 'a' ++ ['a']

/-- The manifest `/m/foo.filelist` whose single line names `longCommand` under
`/usr/local/bin`. -/
def longManifest : Entry :=
  { path := "/m/foo.filelist".toList
    flag := Flag.FTW_F
    file := some ("/usr/local/bin/".toList ++ longCommand ++ ['\n'])
    errno := 0 }

/-- A package name as a manifest `<package-name>.filelist` carries it: not empty, free
of `'.'`, `'/'` and NUL, and shorter than 30 bytes. -/
def IsPackageName (p : List Char) : Prop :=
  p ≠ [] ∧ '.' ∉ p ∧ '/' ∉ p ∧ NUL ∉ p ∧ p.length < 30

instance (p : List Char) : Decidable (IsPackageName p) := by
  unfold IsPackageName; infer_instance

/-- A command name: not empty and free of `'/'`, newline and NUL. -/
def IsCommandName (c : List Char) : Prop :=
  c ≠ [] ∧ '/' ∉ c ∧ '\n' ∉ c ∧ NUL ∉ c

instance (c : List Char) : Decidable (IsCommandName c) := by
  unfold IsCommandName; infer_instance

/-- The directory `/tree` as `nftw` reports it. -/
def treeRoot : Entry :=
  { path := "/tree".toList, flag := Flag.FTW_D, file := none, errno := 0 }

/-- The manifest `/tree/foo.filelist` with the single line `/usr/local/bin/foo`. -/
def fooManifest : Entry :=
  { path := "/tree/foo.filelist".toList, flag := Flag.FTW_F,
    file := some "/usr/local/bin/foo\n".toList, errno := 0 }

/-- The C test `score < 0`. -/
def Score.negative : Score → Prop
  | Score.finite q => q < 0
  | Score.posInf => False
  | Score.negInf => True
  | Score.nan => False

instance (s : Score) : Decidable s.negative := by
  cases s <;> simp only [Score.negative] <;> infer_instance

/-- The body of the inner loop (source lines 64-69) computed over unbounded integers:
`cellStep` without the reduction modulo `2^8` of the incremented value. -/
def cellStepZ (str1 str2 : List Char) (i j : Nat) (memo : Table) : Table :=
  let memo := memo.set (i + 1) (j + 1) (memo i j)
  if charAt str1 i ≠ charAt str2 j then
    let memo := if memo (i + 1) j < memo (i + 1) (j + 1)
      then memo.set (i + 1) (j + 1) (memo (i + 1) j) else memo
    let memo := if memo i (j + 1) < memo (i + 1) (j + 1)
      then memo.set (i + 1) (j + 1) (memo i (j + 1)) else memo
    memo.set (i + 1) (j + 1) (memo (i + 1) (j + 1) + 1)
  else memo

/-- The table of source lines 57-71 computed over unbounded integers: `fillMemo` with
cells that hold every `int`. -/
def fillMemoZ (str1 str2 : List Char) : Table :=
  let str1_len := str1.length
  let str2_len := str2.length
  let memo : Table := fun _ _ => 0
  let memo := forLoop str1_len (fun i memo => memo.set (i + 1) 0 ((i : Int) + 1)) memo
  let memo := forLoop str2_len (fun j memo => memo.set 0 (j + 1) ((j : Int) + 1)) memo
  forLoop str1_len (fun i memo => forLoop str2_len (fun j memo => cellStepZ str1 str2 i j memo) memo) memo

/-- The value `cellStepZ` leaves in `memo[i + 1][j + 1]`. -/
def cellValueZ (d l u : Int) (ne : Bool) : Int :=
  if ne then
    let v := d
    let v := if l < v then l else v
    let v := if u < v then u else v
    v + 1
  else d

/-- Row `i + 1` of the unbounded table as a function of row `i`. -/
def nextRowZ (str1 str2 : List Char) (i : Nat) (prev : Nat → Int) : Nat → Int
  | 0 => (i : Int) + 1
  | j + 1 =>
    cellValueZ (prev j) (nextRowZ str1 str2 i prev j) (prev (j + 1))
      (decide (charAt str1 i ≠ charAt str2 j))

/-- The content of cell `(i, j)` of the unbounded table, as a recurrence over the rows. -/
def memoCellZ (str1 str2 : List Char) : Nat → Nat → Int
  | 0 => fun j => (j : Int)
  | i + 1 => nextRowZ str1 str2 i (memoCellZ str1 str2 i)

deriving instance DecidableEq for Except

/-- The manifest `/tree/pkg.filelist` that holds `n` copies of `line`. -/
def repeatManifest (line : List Char) (n : Nat) : Entry :=
  { path := "/tree/pkg.filelist".toList, flag := Flag.FTW_F,
    file := some (List.replicate n line).flatten, errno := 0 }

/-- The text `fprintf(stderr, "  %s\n", s)` prints. -/
def entry_line (s : List Char) : List Char :=
  "  ".toList ++ s ++ "\n".toList

/-- The loop `for (int i = 0; i < n; i++) fprintf(stderr, "  %s\n", matches[i])` of
source lines 146 and 150: the texts printed, in order.  Printing an entry that has no
terminator inside its array reads past the array and is undefined. -/
def print_matches (entry : Nat → Option (List Char)) : Nat → Except Fault (List (List Char))
  | 0 => Except.ok []
  | n + 1 =>
    match print_matches entry n with
    | Except.error f => Except.error f
    | Except.ok out =>
      match entry n with
      | none => Except.error Fault.undefined
      | some s => Except.ok (out ++ [entry_line s])

/-- The report of source lines 143-154: the texts of the successive `fprintf` calls. -/
def report (cmd_to_search : List Char) (st : State) : Except Fault (List (List Char)) :=
  if 0 < st.total_exact_matches then
    match print_matches st.exact_entry st.total_exact_matches with
    | Except.error f => Except.error f
    | Except.ok lines =>
      Except.ok (["The command '".toList ++ cmd_to_search ++ "' is not currently installed\n\n".toList,
        "However, the following Chromebrew package(s) provide it:\n\n".toList] ++ lines ++
        ["\nInstall one of them with 'crew install <package>'\n".toList])
  else if 0 < st.total_fuzzy_matches then
    match print_matches st.fuzzy_entry st.total_fuzzy_matches with
    | Except.error f => Except.error f
    | Except.ok lines =>
      Except.ok (["No command '".toList ++ cmd_to_search ++ "' found. Did you mean:\n\n".toList] ++
        lines ++ ["\nInstall one of them with 'crew install <package>'\n".toList])
  else Except.ok [cmd_to_search ++ ": command not found\n".toList]

/-- The function `main` (source lines 131-157) for the argument vector `argv` (without
its final null pointer) and the entries the walk of `argv[2]` visits: the texts printed
to `stderr` by `main` itself and the value returned.  A run that ends inside `nftw`
(`exit`, undefined behaviour) prints no report.  With an argument count other than 3
the usage line names `argv[0]`; for an empty vector `argv[0]` is a null pointer, and
printing it with `%s` is undefined. -/
def main (sgn : Bool) (argv : List (List Char)) (entries : List Entry) :
    Except Fault (List (List Char) × Int) :=
  match argv with
  | [] => Except.error Fault.undefined
  | [_, cmd_to_search, _] =>
    match nftw sgn cmd_to_search entries State.initial with
    | Except.error f => Except.error f
    | Except.ok st =>
      match report cmd_to_search st with
      | Except.error f => Except.error f
      | Except.ok out => Except.ok (out, 0)
  | prog :: _ =>
    Except.ok (["Usage: ".toList ++ prog ++ " [command name] [search path]\n".toList], 1)

/-- The manifest `/tree/bar.filelist` when `fopen` fails on it with `EACCES` (13). -/
def barUnreadable : Entry :=
  { path := "/tree/bar.filelist".toList, flag := Flag.FTW_F, file := none, errno := 13 }

/-- The manifest `/tree/texlive-collection-fontsrecommended.filelist`, whose package
name has 35 bytes, with five lines `/usr/local/bin/foo`. -/
def longNameManifest : Entry :=
  { path := "/tree/texlive-collection-fontsrecommended.filelist".toList, flag := Flag.FTW_F,
    file := some (List.replicate 5 "/usr/local/bin/foo\n".toList).flatten, errno := 0 }

/-! ## Section 3: lemmas on the table -/

theorem forLoop_inv {σ : Type} (P : Nat → σ → Prop) (n : Nat) (body : Nat → σ → σ) (s : σ)
    (h0 : P 0 s) (hstep : ∀ k t, k < n → P k t → P (k + 1) (body k t)) :
    P n (forLoop n body s) := by
  suffices h : ∀ m, m ≤ n → P m (forLoop m body s) from h n le_rfl
  intro m
  induction m with
  | zero => intro _; exact h0
  | succ m ih =>
    intro hm
    exact hstep m _ hm (ih (Nat.le_of_succ_le hm))

theorem wrapChar_zero (sgn : Bool) : wrapChar sgn 0 = 0 := by
  cases sgn <;> simp [wrapChar]

theorem wrapChar_of_range (sgn : Bool) (v : Int) (h0 : 0 ≤ v) (h1 : v ≤ 127) :
    wrapChar sgn v = v := by
  cases sgn <;> simp only [wrapChar] <;> simp <;> omega

theorem wrapChar_nonneg_unsigned (v : Int) : 0 ≤ wrapChar false v := by
  simp only [wrapChar]; simp; omega

theorem Table.set_same (memo : Table) (i j : Nat) (v : Int) : memo.set i j v i j = v := by
  simp [Table.set]

theorem Table.set_other (memo : Table) (i j i' j' : Nat) (v : Int) (h : ¬ (i' = i ∧ j' = j)) :
    memo.set i j v i' j' = memo i' j' := by
  simp [Table.set, h]

theorem Table.set_set (memo : Table) (i j : Nat) (v w : Int) :
    (memo.set i j v).set i j w = memo.set i j w := by
  funext i' j'
  simp only [Table.set]
  split_ifs <;> rfl

theorem cellStep_eq (sgn : Bool) (str1 str2 : List Char) (i j : Nat) (memo : Table) :
    cellStep sgn str1 str2 i j memo =
      memo.set (i + 1) (j + 1)
        (cellValue sgn (memo i j) (memo (i + 1) j) (memo i (j + 1))
          (decide (charAt str1 i ≠ charAt str2 j))) := by
  have e1 : ∀ (m : Table) v, m.set (i + 1) (j + 1) v (i + 1) j = m (i + 1) j := fun m v =>
    Table.set_other m _ _ _ _ v (by omega)
  have e2 : ∀ (m : Table) v, m.set (i + 1) (j + 1) v i (j + 1) = m i (j + 1) := fun m v =>
    Table.set_other m _ _ _ _ v (by omega)
  by_cases hne : charAt str1 i = charAt str2 j
  · simp [cellStep, cellValue, hne]
  · simp only [cellStep, cellValue, hne, ne_eq, not_false_eq_true, if_true, decide_True,
      e1, e2, Table.set_same]
    by_cases h1 : memo (i + 1) j < memo i j
    · simp only [h1, if_true, e2, Table.set_same]
      by_cases h2 : memo i (j + 1) < memo (i + 1) j
      · simp only [h2, if_true, Table.set_same, Table.set_set]
      · simp only [h2, if_false, Table.set_same, Table.set_set]
    · simp only [h1, if_false, e2, Table.set_same]
      by_cases h2 : memo i (j + 1) < memo i j
      · simp only [h2, if_true, Table.set_same, Table.set_set]
      · simp only [h2, if_false, Table.set_same, Table.set_set]

/-- The table after the two initialisation loops. -/
theorem init_loops (w : Nat → Int) (n1 n2 : Nat) (i j : Nat) :
    forLoop n2 (fun j (memo : Table) => memo.set 0 (j + 1) (w j))
      (forLoop n1 (fun i (memo : Table) => memo.set (i + 1) 0 (w i)) (fun _ _ => 0)) i j =
    if j = 0 ∧ 1 ≤ i ∧ i ≤ n1 then w (i - 1)
    else if i = 0 ∧ 1 ≤ j ∧ j ≤ n2 then w (j - 1) else 0 := by
  have h1 : ∀ n, forLoop n (fun i (memo : Table) => memo.set (i + 1) 0 (w i)) (fun _ _ => 0) i j
      = if j = 0 ∧ 1 ≤ i ∧ i ≤ n then w (i - 1) else 0 := by
    intro n
    induction n with
    | zero =>
      simp only [forLoop]
      split_ifs <;> first | rfl | omega
    | succ n ih =>
      simp only [forLoop, Table.set, ih]
      by_cases h : i = n + 1 ∧ j = 0
      · obtain ⟨rfl, rfl⟩ := h; simp
      · simp only [h, if_false]
        split_ifs <;> first | rfl | omega
  induction n2 with
  | zero =>
    simp only [forLoop, h1]
    split_ifs <;> first | rfl | omega
  | succ n ih =>
    simp only [forLoop, Table.set] at ih ⊢
    rw [ih]
    by_cases h : i = 0 ∧ j = n + 1
    · obtain ⟨rfl, rfl⟩ := h; simp
    · simp only [h, if_false]
      split_ifs <;> first | rfl | omega

theorem wrapChar_pred (sgn : Bool) (k : Nat) (hk : 1 ≤ k) :
    wrapChar sgn (((k - 1 : Nat) : Int) + 1) = wrapChar sgn k := by
  congr 1; omega

theorem memoCell_zero_left (sgn : Bool) (str1 str2 : List Char) (j : Nat) :
    memoCell sgn str1 str2 0 j = wrapChar sgn j := rfl

theorem memoCell_zero_right (sgn : Bool) (str1 str2 : List Char) (i : Nat) :
    memoCell sgn str1 str2 i 0 = wrapChar sgn i := by
  cases i with
  | zero => rfl
  | succ i => simp [memoCell, nextRow]

theorem memoCell_succ (sgn : Bool) (str1 str2 : List Char) (i j : Nat) :
    memoCell sgn str1 str2 (i + 1) (j + 1) =
      cellValue sgn (memoCell sgn str1 str2 i j) (memoCell sgn str1 str2 (i + 1) j)
        (memoCell sgn str1 str2 i (j + 1)) (decide (charAt str1 i ≠ charAt str2 j)) := rfl

/-- The loops of `get_similarity` leave in every cell of the table the value given by
the recurrence `memoCell`. -/
theorem fillMemo_eq (sgn : Bool) (str1 str2 : List Char) (i j : Nat)
    (hi : i ≤ str1.length) (hj : j ≤ str2.length) :
    fillMemo sgn str1 str2 i j = memoCell sgn str1 str2 i j := by
  let P : Nat → Table → Prop := fun k M =>
    (∀ i' j', i' ≤ k → j' ≤ str2.length → M i' j' = memoCell sgn str1 str2 i' j') ∧
    (∀ i', i' ≤ str1.length → M i' 0 = wrapChar sgn i')
  have key : P str1.length (fillMemo sgn str1 str2) := by
    unfold fillMemo
    apply forLoop_inv P
    · constructor
      · intro i' j' hi' hj'
        have hi0 : i' = 0 := by omega
        subst hi0
        rw [init_loops (fun k => wrapChar sgn ((k : Int) + 1)), memoCell_zero_left]
        by_cases hj0 : j' = 0
        · subst hj0; simp [wrapChar_zero]
        · have : ¬ (j' = 0 ∧ 1 ≤ 0 ∧ 0 ≤ str1.length) := by omega
          have h2 : (0 = 0 ∧ 1 ≤ j' ∧ j' ≤ str2.length) := by omega
          simp only [this, h2, if_false, if_true]
          exact wrapChar_pred sgn j' (by omega)
      · intro i' hi'
        rw [init_loops (fun k => wrapChar sgn ((k : Int) + 1))]
        by_cases hi0 : i' = 0
        · subst hi0; simp [wrapChar_zero]
        · have : (0 = 0 ∧ 1 ≤ i' ∧ i' ≤ str1.length) := by omega
          simp only [this, if_true]
          exact wrapChar_pred sgn i' (by omega)
    · intro k t hk ⟨hrows, hcol⟩
      let Q : Nat → Table → Prop := fun c M =>
        (∀ i' j', i' ≤ k → j' ≤ str2.length → M i' j' = memoCell sgn str1 str2 i' j') ∧
        (∀ j', j' ≤ c → M (k + 1) j' = memoCell sgn str1 str2 (k + 1) j') ∧
        (∀ i', i' ≤ str1.length → M i' 0 = wrapChar sgn i')
      have hQ : Q str2.length
          (forLoop str2.length (fun j memo => cellStep sgn str1 str2 k j memo) t) := by
        apply forLoop_inv Q
        · refine ⟨hrows, ?_, hcol⟩
          intro j' hj'
          have : j' = 0 := by omega
          subst this
          rw [hcol (k + 1) hk, memoCell_zero_right]
        · intro c M hc ⟨h1, h2, h3⟩
          rw [cellStep_eq]
          refine ⟨?_, ?_, ?_⟩
          · intro i' j' hi' hj'
            rw [Table.set_other _ _ _ _ _ _ (by omega)]
            exact h1 i' j' hi' hj'
          · intro j' hj'
            by_cases hjc : j' = c + 1
            · subst hjc
              rw [Table.set_same, memoCell_succ, h1 k c le_rfl (by omega), h2 c le_rfl,
                h1 k (c + 1) le_rfl (by omega)]
            · rw [Table.set_other _ _ _ _ _ _ (by omega)]
              exact h2 j' (by omega)
          · intro i' hi'
            rw [Table.set_other _ _ _ _ _ _ (by omega)]
            exact h3 i' hi'
      obtain ⟨h1, h2, h3⟩ := hQ
      refine ⟨?_, h3⟩
      intro i' j' hi' hj'
      by_cases hik : i' = k + 1
      · subst hik; exact h2 j' hj'
      · exact h1 i' j' (by omega) hj'
  exact key.1 i j hi hj

theorem memoCell_diag (sgn : Bool) (s : List Char) (i : Nat) :
    memoCell sgn s s i i = 0 := by
  induction i with
  | zero => exact wrapChar_zero sgn
  | succ i ih => rw [memoCell_succ]; simp [cellValue, ih]

theorem floatDiv_pos (n : Int) (d : Nat) (hd : d ≠ 0) :
    floatDiv n d = Score.finite ((n : ℚ) / (d : ℚ)) := by
  simp [floatDiv, hd]

theorem get_similarity_eq (sgn : Bool) (str1 str2 : List Char) :
    get_similarity sgn str1 str2 =
      floatDiv ((str1.length : Int) - memoCell sgn str1 str2 str1.length str2.length)
        str1.length := by
  simp only [get_similarity]
  rw [fillMemo_eq sgn str1 str2 _ _ le_rfl le_rfl]

theorem get_similarity_diag (sgn : Bool) (s : List Char) (hs : s ≠ []) :
    get_similarity sgn s s = Score.finite 1 := by
  have hlen : s.length ≠ 0 := by simpa using hs
  rw [get_similarity_eq, memoCell_diag, floatDiv_pos _ _ hlen]
  congr 1
  have : (s.length : ℚ) ≠ 0 := by exact_mod_cast hlen
  simp [this]

theorem get_similarity_nil_right (sgn : Bool) (s : List Char) (hs : s ≠ []) :
    get_similarity sgn s [] =
      Score.finite ((((s.length : Int) - wrapChar sgn s.length : Int) : ℚ) / (s.length : ℚ)) := by
  have hlen : s.length ≠ 0 := by simpa using hs
  rw [get_similarity_eq, floatDiv_pos _ _ hlen]
  simp [memoCell_zero_right]

theorem get_similarity_replicate_nil (sgn : Bool) (x : Char) (n : Nat) (hn : n ≠ 0) :
    get_similarity sgn (List.replicate n x) [] =
      Score.finite ((((n : Int) - wrapChar sgn n : Int) : ℚ) / (n : ℚ)) := by
  have hne : List.replicate n x ≠ [] := by
    intro h
    have := congrArg List.length h
    rw [List.length_replicate] at this
    exact hn this
  rw [get_similarity_nil_right sgn _ hne, List.length_replicate]

theorem lev_nil_right (a : List Char) : lev a [] = a.length := by
  cases a <;> simp [lev]

/-- With unsigned `char` no cell is negative. -/
theorem memoCell_nonneg_unsigned (str1 str2 : List Char) (i j : Nat) :
    0 ≤ memoCell false str1 str2 i j := by
  induction i generalizing j with
  | zero => exact wrapChar_nonneg_unsigned _
  | succ i ih =>
    induction j with
    | zero => rw [memoCell_zero_right]; exact wrapChar_nonneg_unsigned _
    | succ j _ =>
      rw [memoCell_succ]
      simp only [cellValue]
      split_ifs
      all_goals first | exact wrapChar_nonneg_unsigned _ | exact ih j

/-- Within 127 rows and columns every cell lies between 0 and the larger index. -/
theorem memoCell_range (sgn : Bool) (str1 str2 : List Char) (i j : Nat)
    (hi : i ≤ 127) (hj : j ≤ 127) :
    0 ≤ memoCell sgn str1 str2 i j ∧ memoCell sgn str1 str2 i j ≤ max i j := by
  induction i generalizing j with
  | zero =>
    rw [memoCell_zero_left, wrapChar_of_range sgn j (by omega) (by omega)]
    omega
  | succ i ih =>
    induction j with
    | zero =>
      rw [memoCell_zero_right, wrapChar_of_range sgn _ (by omega) (by omega)]
      omega
    | succ j ihj =>
      have hd := ih j (by omega) (by omega)
      have hu := ih (j + 1) (by omega) (by omega)
      have hl := ihj (by omega)
      rw [memoCell_succ]
      simp only [cellValue]
      split_ifs
      all_goals first
        | (rw [wrapChar_of_range sgn _ (by omega) (by omega)]; omega)
        | omega

theorem memoCell_diag_of_common (sgn : Bool) (str1 str2 : List Char) (n : Nat)
    (hpre : ∀ i, i < n → charAt str1 i = charAt str2 i) (i : Nat) (hi : i ≤ n) :
    memoCell sgn str1 str2 i i = 0 := by
  induction i with
  | zero => exact wrapChar_zero sgn
  | succ i ih =>
    rw [memoCell_succ]
    simp [cellValue, hpre i (by omega), ih (by omega)]

theorem wrapChar_one (sgn : Bool) : wrapChar sgn 1 = 1 :=
  wrapChar_of_range sgn 1 (by omega) (by omega)

/-- When the two strings agree on their first `n` bytes and no cell is negative, the
cells just right of the diagonal hold 1. -/
theorem memoCell_superdiag (sgn : Bool) (str1 str2 : List Char) (n : Nat)
    (hpre : ∀ i, i < n → charAt str1 i = charAt str2 i)
    (hnn : ∀ i j, i ≤ n → j ≤ n + 1 → 0 ≤ memoCell sgn str1 str2 i j)
    (i : Nat) (hi : i ≤ n) :
    memoCell sgn str1 str2 i (i + 1) = 1 := by
  induction i with
  | zero => rw [memoCell_zero_left]; exact wrapChar_one sgn
  | succ i ih =>
    have hd := ih (by omega)
    have hl := memoCell_diag_of_common sgn str1 str2 n hpre (i + 1) hi
    have hu := hnn i (i + 1 + 1) (by omega) (by omega)
    rw [memoCell_succ, hd, hl]
    simp only [cellValue]
    split_ifs
    · omega
    · exact wrapChar_one sgn
    · omega
    · omega
    · rfl

/-- When the two strings agree on their first `n` bytes and no cell is negative, the
cells just below the diagonal hold 1. -/
theorem memoCell_subdiag (sgn : Bool) (str1 str2 : List Char) (n : Nat)
    (hpre : ∀ i, i < n → charAt str1 i = charAt str2 i)
    (hnn : ∀ i j, i ≤ n + 1 → j ≤ n → 0 ≤ memoCell sgn str1 str2 i j)
    (i : Nat) (hi : i ≤ n) :
    memoCell sgn str1 str2 (i + 1) i = 1 := by
  induction i with
  | zero => rw [memoCell_zero_right]; exact wrapChar_one sgn
  | succ i ih =>
    have hd := ih (by omega)
    have hu := memoCell_diag_of_common sgn str1 str2 n hpre (i + 1) hi
    have hl := hnn (i + 1 + 1) i (by omega) (by omega)
    rw [memoCell_succ, hd, hu]
    generalize memoCell sgn str1 str2 (i + 1 + 1) i = l at hl
    simp only [cellValue]
    split_ifs
    all_goals first
      | rfl
      | exact wrapChar_one sgn
      | (have h0 : l = 0 := by omega
         rw [h0]; exact wrapChar_one sgn)
      | omega

theorem charAt_append_left (a b : List Char) (i : Nat) (hi : i < a.length) :
    charAt (a ++ b) i = charAt a i := by
  simp [charAt, List.getD_eq_getElem?_getD, List.getElem?_append_left hi]

/-- Nonnegativity of the cells used by the one-byte extension lemmas: always with
unsigned `char`, and within 127 rows and columns with signed `char`. -/
theorem memoCell_nonneg (sgn : Bool) (str1 str2 : List Char) (r c : Nat)
    (h : sgn = false ∨ (r ≤ 127 ∧ c ≤ 127)) (i j : Nat) (hi : i ≤ r) (hj : j ≤ c) :
    0 ≤ memoCell sgn str1 str2 i j := by
  rcases h with h | h
  · subst h; exact memoCell_nonneg_unsigned _ _ _ _
  · exact (memoCell_range sgn str1 str2 i j (by omega) (by omega)).1

/-- The score of a string against its extension by one byte. -/
theorem get_similarity_append_right (sgn : Bool) (a : List Char) (c : Char) (ha : a ≠ [])
    (h : sgn = false ∨ a.length ≤ 126) :
    get_similarity sgn a (a ++ [c]) = Score.finite (((a.length : ℚ) - 1) / (a.length : ℚ)) := by
  have hlen : a.length ≠ 0 := by simpa using ha
  have hcell : memoCell sgn a (a ++ [c]) a.length (a.length + 1) = 1 := by
    apply memoCell_superdiag sgn a (a ++ [c]) a.length
    · intro i hi; exact (charAt_append_left a [c] i hi).symm
    · intro i j hi hj
      exact memoCell_nonneg sgn _ _ a.length (a.length + 1) (h.imp id (fun h => by omega)) i j hi hj
    · exact le_rfl
  rw [get_similarity_eq, floatDiv_pos _ _ hlen]
  simp [hcell]

/-- The score of a string extended by one byte against the string itself. -/
theorem get_similarity_append_left (sgn : Bool) (a : List Char) (c : Char)
    (h : sgn = false ∨ a.length ≤ 126) :
    get_similarity sgn (a ++ [c]) a =
      Score.finite ((a.length : ℚ) / ((a.length : ℚ) + 1)) := by
  have hcell : memoCell sgn (a ++ [c]) a (a.length + 1) a.length = 1 := by
    apply memoCell_subdiag sgn (a ++ [c]) a a.length
    · intro i hi; exact charAt_append_left a [c] i hi
    · intro i j hi hj
      exact memoCell_nonneg sgn _ _ (a.length + 1) a.length (h.imp id (fun h => by omega)) i j hi hj
    · exact le_rfl
  rw [get_similarity_eq, floatDiv_pos _ _ (by simp)]
  simp [hcell]

theorem charAt_replicate (x : Char) (n i : Nat) (hi : i < n) :
    charAt (List.replicate n x) i = x := by
  simp [charAt, List.getD_eq_getElem?_getD, List.getElem?_replicate, hi]

theorem charAt_append_last (a : List Char) (c : Char) :
    charAt (a ++ [c]) a.length = c := by
  simp [charAt, List.getD_eq_getElem?_getD]

/-- The part of the table where a run of 127 equal bytes is compared with itself. -/
theorem memoCell_replicate_block (x c : Char) (i j : Nat) (hi : i ≤ 127) (hj : j ≤ 127) :
    memoCell true (List.replicate 127 x) (List.replicate 127 x ++ [c]) i j =
      if i ≤ j then (j : Int) - i else (i : Int) - j := by
  induction i generalizing j with
  | zero =>
    rw [memoCell_zero_left, wrapChar_of_range true j (by omega) (by omega)]
    simp
  | succ i ih =>
    cases j with
    | zero =>
      rw [memoCell_zero_right, wrapChar_of_range true _ (by omega) (by omega)]
      simp
    | succ j =>
      have h1 : charAt (List.replicate 127 x) i = x := charAt_replicate x 127 i (by omega)
      have h2 : charAt (List.replicate 127 x ++ [c]) j = x := by
        rw [charAt_append_left _ _ _ (by rw [List.length_replicate]; omega)]
        exact charAt_replicate x 127 j (by omega)
      rw [memoCell_succ, h1, h2, ih j (by omega) (by omega)]
      simp only [cellValue, ne_eq, not_true_eq_false, decide_False, Bool.false_eq_true, if_false]
      split_ifs <;> omega

/-- The last column of the table for 127 equal bytes against the same bytes followed by
a different byte, with signed `char`: the cells are negative. -/
theorem memoCell_replicate_last_column (x c : Char) (hc : x ≠ c) (i : Nat) (hi : i ≤ 127) :
    memoCell true (List.replicate 127 x) (List.replicate 127 x ++ [c]) i 128 = (i : Int) - 128 := by
  induction i with
  | zero => rw [memoCell_zero_left]; simp [wrapChar]
  | succ i ih =>
    have h1 : charAt (List.replicate 127 x) i = x := charAt_replicate x 127 i (by omega)
    have h2 : charAt (List.replicate 127 x ++ [c]) 127 = c := by
      have := charAt_append_last (List.replicate 127 x) c
      rwa [List.length_replicate] at this
    rw [memoCell_succ, h1, h2, ih (by omega),
      memoCell_replicate_block x c i 127 (by omega) le_rfl,
      memoCell_replicate_block x c (i + 1) 127 (by omega) le_rfl]
    have hle1 : i ≤ 127 := by omega
    have hle2 : i + 1 ≤ 127 := hi
    simp only [cellValue, hc, ne_eq, not_false_eq_true, decide_True, if_true, hle1, hle2]
    have e : ∀ v : Int, -127 ≤ v → v ≤ 0 → wrapChar true v = v := by
      intro v h1 h2
      simp only [wrapChar, if_true]
      omega
    split_ifs
    all_goals (rw [e _ (by push_cast; omega) (by push_cast; omega)]; push_cast; omega)

theorem get_similarity_signed_127 :
    get_similarity true (List.replicate 127 'a') (List.replicate 127 'a' ++ ['z']) =
      Score.finite (128 / 127) := by
  rw [get_similarity_eq, floatDiv_pos _ _ (by rw [List.length_replicate]; decide)]
  have h := memoCell_replicate_last_column 'a' 'z' (by decide) 127 le_rfl
  have hl : (List.replicate 127 'a' ++ ['z']).length = 128 := by
    rw [List.length_append, List.length_replicate]; rfl
  rw [hl, List.length_replicate, h]
  norm_num

/-! ## Section 4: lemmas on the scanner -/

theorem compare_line_eq_match (sgn : Bool) (t p buf : List Char) (st : State)
    (h : "/usr/local/bin".toList <+: buf ∨ "/usr/local/sbin".toList <+: buf) :
    compare_line sgn t p buf st = match_line sgn t p buf st := by
  simp only [compare_line, cmd_search_path, try_paths]
  rcases h with h | h
  · rw [if_pos ( List.isPrefixOf_iff_prefix.mpr h)]
  · rw [if_pos ( List.isPrefixOf_iff_prefix.mpr h)]
    split_ifs <;> rfl

theorem compare_line_no_match (sgn : Bool) (t p buf : List Char) (st : State)
    (h1 : ¬ "/usr/local/bin".toList <+: buf) (h2 : ¬ "/usr/local/sbin".toList <+: buf) :
    compare_line sgn t p buf st = Except.ok st := by
  simp only [compare_line, cmd_search_path, try_paths]
  rw [if_neg (fun h => h1 ( List.isPrefixOf_iff_prefix.mp h)),
    if_neg (fun h => h2 ( List.isPrefixOf_iff_prefix.mp h))]

theorem takeWhile_of_not_mem (c : Char) (l r : List Char) (h : c ∉ l) :
    (l ++ c :: r).takeWhile (fun x => x != c) = l := by
  induction l with
  | nil => simp
  | cons x l ih =>
    have hx : x ≠ c := fun e => h (by simp [e])
    have hl : c ∉ l := fun e => h (by simp [e])
    simp [List.takeWhile_cons, hx, ih hl]

theorem takeWhile_all (c : Char) (l : List Char) (h : c ∉ l) :
    l.takeWhile (fun x => x != c) = l := by
  induction l with
  | nil => simp
  | cons x l ih =>
    have hx : x ≠ c := fun e => h (by simp [e])
    have hl : c ∉ l := fun e => h (by simp [e])
    simp [List.takeWhile_cons, hx, ih hl]

theorem lastComponent_append (pre c : List Char) (hc : '/' ∉ c) :
    lastComponent (pre ++ '/' :: c) = c := by
  simp only [lastComponent, List.reverse_append, List.reverse_cons, List.append_assoc,
    List.singleton_append]
  rw [takeWhile_of_not_mem '/' c.reverse pre.reverse (by simpa using hc)]
  simp

theorem stripTrailingSlashes_append (pre c : List Char) (hne : c ≠ []) (hc : '/' ∉ c) :
    stripTrailingSlashes (pre ++ c) = pre ++ c := by
  simp only [stripTrailingSlashes, List.reverse_append]
  have : ∃ x l, c.reverse = x :: l ∧ x ≠ '/' := by
    cases h : c.reverse with
    | nil => simp at h; exact absurd h hne
    | cons x l =>
      refine ⟨x, l, rfl, ?_⟩
      intro e
      have : x ∈ c.reverse := by rw [h]; simp
      rw [e] at this
      exact hc (by simpa using this)
  obtain ⟨x, l, hxl, hx⟩ := this
  rw [hxl, List.cons_append, List.dropWhile_cons]
  have hb : (x == '/') = false := by simpa using hx
  rw [hb]
  simp only [Bool.false_eq_true, if_false]
  rw [← List.cons_append, ← hxl, ← List.reverse_append, List.reverse_reverse]

/-- The base name of a path whose last component `c` is not empty. -/
theorem basename_append_component (pre c : List Char) (hne : c ≠ []) (hc : '/' ∉ c) :
    basename (pre ++ '/' :: c) = c := by
  have h1 : pre ++ '/' :: c ≠ [] := by simp
  have h2 : stripTrailingSlashes (pre ++ '/' :: c) = pre ++ '/' :: c := by
    have := stripTrailingSlashes_append (pre ++ ['/']) c hne hc
    simpa using this
  simp only [basename, h1, if_false, h2]
  exact lastComponent_append pre c hc

theorem store_length (mem bytes : List Char) (off : Nat) (h : off + bytes.length ≤ mem.length) :
    (store mem off bytes).length = mem.length := by
  simp only [store, List.length_append, List.length_take, List.length_drop]
  omega

theorem store_take (mem bytes : List Char) (off : Nat) (h : off ≤ mem.length) :
    (store mem off bytes).take off = mem.take off := by
  simp only [store, List.append_assoc]
  rw [List.take_append_of_le_length (by rw [List.length_take]; omega)]
  rw [List.take_take]
  simp

theorem store_drop (mem bytes : List Char) (off : Nat) (h : off ≤ mem.length) :
    (store mem off bytes).drop off = bytes ++ mem.drop (off + bytes.length) := by
  simp only [store, List.append_assoc]
  have hl : (mem.take off).length = off := by rw [List.length_take]; omega
  exact List.drop_left' hl

/-- Reading back a terminated string that was just written. -/
theorem cstrAt_store (mem s tail : List Char) (off : Nat) (h : off ≤ mem.length)
    (hs : NUL ∉ s) :
    cstrAt (store mem off (s ++ NUL :: tail)) off = some s := by
  simp only [cstrAt]
  rw [store_drop mem _ off h]
  have hm : NUL ∈ s ++ NUL :: tail ++ List.drop (off + (s ++ NUL :: tail).length) mem := by
    simp
  rw [if_pos hm, List.append_assoc, List.cons_append, takeWhile_of_not_mem NUL s _ hs]

theorem strncpy_short (p : List Char) (n : Nat) (h : p.length < n) :
    strncpy p n = p ++ NUL :: List.replicate (n - p.length - 1) NUL := by
  simp only [strncpy]
  rw [List.take_of_length_le (by omega)]
  congr 1
  have : n - p.length = (n - p.length - 1) + 1 := by omega
  rw [this, List.replicate_succ]
  simp

theorem strncpy_length (p : List Char) (n : Nat) : (strncpy p n).length = n := by
  simp only [strncpy, List.length_append, List.length_take, List.length_replicate]
  omega

theorem snprintf_length_le (n : Nat) (text : List Char) (hn : 1 ≤ n) :
    (snprintf n text).length ≤ n := by
  simp only [snprintf, List.length_append, List.length_take, List.length_singleton]
  omega

/-- Storing a package name shorter than 30 bytes appends it to the exact matches. -/
theorem record_exact_ok (p : List Char) (st : State) (hwf : st.WF)
    (hE : st.total_exact_matches < 5) (hp : p.length < 30) (hnul : NUL ∉ p) :
    ∃ st', record_exact p st = Except.ok st' ∧ st.appendsExact st' p ∧ st.sameFuzzy st' ∧
      st'.WF ∧ st'.opened = st.opened := by
  have hlen : 30 * st.total_exact_matches + (strncpy p 30).length ≤ st.exact_matches.length := by
    rw [strncpy_length, hwf.2]; omega
  refine ⟨{ st with
      exact_matches := store st.exact_matches (30 * st.total_exact_matches) (strncpy p 30)
      total_exact_matches := st.total_exact_matches + 1 },
    by simp only [record_exact, if_pos hE], ⟨rfl, ?_, ?_⟩, ⟨rfl, rfl⟩, ⟨hwf.1, ?_⟩, rfl⟩
  · simp only [State.exact_entry]
    rw [strncpy_short p 30 hp]
    exact cstrAt_store _ _ _ _ (by rw [hwf.2]; omega) hnul
  · exact store_take _ _ _ (by rw [hwf.2]; omega)
  · show (store _ _ _).length = 150
    rw [store_length _ _ _ hlen, hwf.2]

/-- Storing a fuzzy match appends the first 99 bytes of its text to the fuzzy matches. -/
theorem record_fuzzy_ok (c p : List Char) (st : State) (hwf : st.WF)
    (hF : st.total_fuzzy_matches < 10) (hnul : NUL ∉ fuzzy_text c p) :
    ∃ st', record_fuzzy c p st = Except.ok st' ∧
      st.appendsFuzzy st' ((fuzzy_text c p).take 99) ∧ st.sameExact st' ∧
      st'.WF ∧ st'.opened = st.opened := by
  have hl := snprintf_length_le 100 (fuzzy_text c p) (by omega)
  have hlen : 100 * st.total_fuzzy_matches + (snprintf 100 (fuzzy_text c p)).length
      ≤ st.fuzzy_matches.length := by
    rw [hwf.1]; omega
  refine ⟨{ st with
      fuzzy_matches := store st.fuzzy_matches (100 * st.total_fuzzy_matches)
        (snprintf 100 (fuzzy_text c p))
      total_fuzzy_matches := st.total_fuzzy_matches + 1 },
    by simp only [record_fuzzy, if_pos hF], ⟨rfl, ?_, ?_⟩, ⟨rfl, rfl⟩, ⟨?_, hwf.2⟩, rfl⟩
  · simp only [State.fuzzy_entry, snprintf]
    exact cstrAt_store _ _ [] _ (by rw [hwf.1]; omega)
      (fun h => hnul (List.mem_of_mem_take h))
  · exact store_take _ _ _ (by rw [hwf.1]; omega)
  · show (store _ _ _).length = 1000
    rw [store_length _ _ _ hlen, hwf.1]

theorem mem_basename (s : List Char) (hs : s ≠ []) (x : Char) (hx : x ∈ basename s) : x ∈ s := by
  simp only [basename, hs, if_false] at hx
  split_ifs at hx with h
  · -- a string of slashes
    simp only [List.mem_singleton] at hx
    subst hx
    cases hr : s.reverse with
    | nil => simp at hr; exact absurd hr hs
    | cons y l =>
      have hy : y = '/' := by
        by_contra hne
        simp only [stripTrailingSlashes, hr, List.dropWhile_cons] at h
        have hb : (y == '/') = false := by simpa using hne
        rw [hb] at h
        simp at h
      have : y ∈ s.reverse := by rw [hr]; simp
      rw [hy] at this
      simpa using this
  · have h1 : x ∈ (stripTrailingSlashes s).reverse := by
      simp only [lastComponent, List.mem_reverse] at hx
      exact List.mem_reverse.mpr ((List.takeWhile_sublist _).subset hx |> List.mem_reverse.mp)
    simp only [stripTrailingSlashes, List.reverse_reverse] at h1
    exact List.mem_reverse.mp ((List.dropWhile_sublist _).subset h1)

theorem not_mem_fuzzy_text (c p : List Char) (hc : NUL ∉ c) (hp : NUL ∉ p) :
    NUL ∉ fuzzy_text c p := by
  simp only [fuzzy_text, List.mem_append, not_or]
  exact ⟨⟨⟨by decide, hc⟩, by decide⟩, hp⟩

/-- The three outcomes of the per-line step for a buffer that begins with a search path. -/
theorem compare_line_cases (sgn : Bool) (t p buf : List Char) (st : State)
    (hbuf : "/usr/local/bin".toList <+: buf ∨ "/usr/local/sbin".toList <+: buf)
    (hwf : st.WF) (hnb : NUL ∉ buf) (hnp : NUL ∉ p) :
    (basename (buf.takeWhile (fun x => x != '\n')) = t →
      st.total_exact_matches < 5 → p.length < 30 →
      ∃ st', compare_line sgn t p buf st = Except.ok st' ∧
        st.appendsExact st' p ∧ st.sameFuzzy st') ∧
    (basename (buf.takeWhile (fun x => x != '\n')) ≠ t →
      (get_similarity sgn (basename (buf.takeWhile (fun x => x != '\n'))) t).exceeds = true →
      st.total_fuzzy_matches < 10 →
      ∃ st', compare_line sgn t p buf st = Except.ok st' ∧
        st.appendsFuzzy st'
          ((fuzzy_text (basename (buf.takeWhile (fun x => x != '\n'))) p).take 99) ∧
        st.sameExact st') ∧
    (basename (buf.takeWhile (fun x => x != '\n')) ≠ t →
      (get_similarity sgn (basename (buf.takeWhile (fun x => x != '\n'))) t).exceeds = false →
      compare_line sgn t p buf st = Except.ok st) := by
  rw [compare_line_eq_match sgn t p buf st hbuf]
  have hne : buf.takeWhile (fun x => x != '\n') ≠ [] := by
    rcases hbuf with ⟨r, hr⟩ | ⟨r, hr⟩
    · rw [← hr]
      show List.takeWhile (fun x => x != '\n') ('/' :: ("usr/local/bin".toList ++ r)) ≠ []
      simp [List.takeWhile_cons]
    · rw [← hr]
      show List.takeWhile (fun x => x != '\n') ('/' :: ("usr/local/sbin".toList ++ r)) ≠ []
      simp [List.takeWhile_cons]
  have hnc : NUL ∉ basename (buf.takeWhile (fun x => x != '\n')) := fun h =>
    hnb ((List.takeWhile_sublist _).subset (mem_basename _ hne _ h))
  refine ⟨?_, ?_, ?_⟩
  · intro hc hE hp
    obtain ⟨st', h1, h2, h3, _⟩ := record_exact_ok p st hwf hE hp hnp
    exact ⟨st', by simp only [match_line, hc, if_true, h1], h2, h3⟩
  · intro hc hex hF
    obtain ⟨st', h1, h2, h3, _⟩ := record_fuzzy_ok _ p st hwf hF (not_mem_fuzzy_text _ p hnc hnp)
    exact ⟨st', by simp only [match_line, hc, if_false, hex, if_true, h1], h2, h3⟩
  · intro hc hex
    simp only [match_line, hc, if_false, hex, Bool.false_eq_true]

theorem exceeds_finite (q : ℚ) (h : 7 / 10 < q) : (Score.finite q).exceeds = true := by
  simp [Score.exceeds, h]

theorem get_similarity_chromex (sgn : Bool) :
    get_similarity sgn "chromex".toList "chrome".toList = Score.finite (6 / 7) := by
  have h := get_similarity_append_left sgn "chrome".toList 'x' (Or.inr (by decide))
  have e : "chrome".toList ++ ['x'] = "chromex".toList := by decide
  rw [e] at h
  rw [h]
  congr 1
  have : ("chrome".toList.length : ℚ) = 6 := by norm_num [show "chrome".toList.length = 6 from rfl]
  rw [this]; norm_num

theorem get_similarity_fooo (sgn : Bool) :
    get_similarity sgn "fooo".toList "foo".toList = Score.finite (3 / 4) := by
  have h := get_similarity_append_left sgn "foo".toList 'o' (Or.inr (by decide))
  have e : "foo".toList ++ ['o'] = "fooo".toList := by decide
  rw [e] at h
  rw [h]
  congr 1
  have : ("foo".toList.length : ℚ) = 3 := by norm_num [show "foo".toList.length = 3 from rfl]
  rw [this]; norm_num

theorem initial_WF : State.initial.WF := by
  constructor <;> exact List.length_replicate _ _

theorem not_mem_replicate (a b : Char) (n : Nat) (h : a ≠ b) : a ∉ List.replicate n b := by
  intro hm
  exact h (List.eq_of_mem_replicate hm)

/-- The exact-match test passes for a path that only has a search path as a prefix
of its first component. -/
theorem exact_outside_directory (sgn : Bool) :
    ∃ st', compare_line sgn "foo".toList "pkg".toList "/usr/local/bin-extra/foo\n".toList
        State.initial = Except.ok st' ∧
      st'.total_exact_matches = 1 ∧ st'.exact_entry 0 = some "pkg".toList := by
  have hpre : "/usr/local/bin".toList <+: "/usr/local/bin-extra/foo\n".toList ∨
      "/usr/local/sbin".toList <+: "/usr/local/bin-extra/foo\n".toList :=
    Or.inl ⟨"-extra/foo\n".toList, by decide⟩
  obtain ⟨st', h1, ⟨h2, h3, _⟩, _⟩ :=
    (compare_line_cases sgn "foo".toList "pkg".toList "/usr/local/bin-extra/foo\n".toList
      State.initial hpre initial_WF (by decide) (by decide)).1 (by decide) (by decide) (by decide)
  exact ⟨st', h1, h2, h3⟩

theorem fgets_buffers_line (cap : Nat) (l cur : List Char) (hl : '\n' ∉ l)
    (hlen : cur.length + l.length < cap) :
    fgets_buffers cap (l ++ ['\n']) cur = [cur ++ l ++ ['\n']] := by
  induction l generalizing cur with
  | nil => simp [fgets_buffers]
  | cons x l ih =>
    have hx : x ≠ '\n' := fun e => hl (by simp [e])
    have hl' : '\n' ∉ l := fun e => hl (by simp [e])
    have hcap : ¬ cur.length + 1 = cap := by simp only [List.length_cons] at hlen; omega
    simp only [List.cons_append, fgets_buffers, hx, hcap, or_self, if_false, List.append_eq]
    rw [ih (cur ++ [x]) hl' (by simp only [List.length_append, List.length_cons,
      List.length_singleton, List.length_nil] at hlen ⊢; omega)]
    simp

theorem fgets_buffers_last (cap : Nat) (l cur : List Char) (hl : '\n' ∉ l)
    (hne : cur ++ l ≠ []) (hlen : cur.length + l.length < cap) :
    fgets_buffers cap l cur = [cur ++ l] := by
  induction l generalizing cur with
  | nil =>
    have : cur ≠ [] := by simpa using hne
    simp [fgets_buffers, this]
  | cons x l ih =>
    have hx : x ≠ '\n' := fun e => hl (by simp [e])
    have hl' : '\n' ∉ l := fun e => hl (by simp [e])
    have hcap : ¬ cur.length + 1 = cap := by simp only [List.length_cons] at hlen; omega
    simp only [fgets_buffers, hx, hcap, or_self, if_false]
    rw [ih (cur ++ [x]) hl' (by simp) (by simp only [List.length_append, List.length_cons,
      List.length_singleton, List.length_nil] at hlen ⊢; omega)]
    simp

theorem fgets_buffers_full (cap : Nat) (l rest cur : List Char) (hl : '\n' ∉ l)
    (hne : l ≠ []) (hlen : cur.length + l.length = cap) :
    fgets_buffers cap (l ++ rest) cur = (cur ++ l) :: fgets_buffers cap rest [] := by
  induction l generalizing cur with
  | nil => exact absurd rfl hne
  | cons x l ih =>
    have hx : x ≠ '\n' := fun e => hl (by simp [e])
    have hl' : '\n' ∉ l := fun e => hl (by simp [e])
    by_cases hnil : l = []
    · subst hnil
      have hcap : cur.length + 1 = cap := by simpa using hlen
      simp [fgets_buffers, hcap]
    · have hcap : ¬ cur.length + 1 = cap := by
        have : 0 < l.length := List.length_pos.mpr hnil
        simp only [List.length_cons] at hlen; omega
      simp only [List.cons_append, fgets_buffers, hx, hcap, or_self, if_false, List.append_eq]
      rw [ih (cur ++ [x]) hl' hnil (by simp only [List.length_append, List.length_cons,
        List.length_singleton, List.length_nil] at hlen ⊢; omega)]
      simp

theorem cstr_of_not_mem (l : List Char) (h : NUL ∉ l) : cstr l = l :=
  takeWhile_all NUL l h

theorem lastComponent_append_right (stem c : List Char) (hc : '/' ∉ c) :
    lastComponent (stem ++ c) = lastComponent stem ++ c := by
  simp only [lastComponent, List.reverse_append]
  rw [List.takeWhile_append_of_pos]
  · simp
  · intro x hx
    have : x ≠ '/' := fun e => hc (by rw [← e]; simpa using hx)
    simpa using this

theorem dotFilelist_eq : dotFilelist = '.' :: "filelist".toList := rfl

/-- For a path that ends in `.filelist` and is shorter than `PATH_MAX`, `strchr` finds
a `'.'` in the base name: the package name is defined. -/
theorem package_name_ok (stem : List Char) (hlen : (stem ++ dotFilelist).length < PATH_MAX) :
    package_name (stem ++ dotFilelist) =
      Except.ok ((lastComponent stem).takeWhile (fun c => c != '.')) := by
  have hb : basename (stem ++ dotFilelist) = lastComponent stem ++ dotFilelist := by
    have h1 : stem ++ dotFilelist ≠ [] := by simp [dotFilelist_eq]
    have h2 := stripTrailingSlashes_append stem dotFilelist (by decide) (by decide)
    simp only [basename, h1, if_false, h2]
    exact lastComponent_append_right stem dotFilelist (by decide)
  have hlc : (lastComponent stem).length ≤ stem.length := by
    simp only [lastComponent, List.length_reverse]
    have := (List.takeWhile_sublist (fun c => c != '/') (l := stem.reverse)).length_le
    simpa using this
  have htw : List.takeWhile (fun c => c != '.') (lastComponent stem ++ dotFilelist) =
      (lastComponent stem).takeWhile (fun c => c != '.') := by
    rw [dotFilelist_eq]
    induction lastComponent stem with
    | nil => simp
    | cons x l ih =>
      simp only [List.cons_append, List.takeWhile_cons]
      split_ifs
      · rw [ih]
      · rfl
  simp only [package_name, hb]
  rw [htw, if_pos]
  constructor
  · have : (List.takeWhile (fun c => c != '.') (lastComponent stem)).length ≤
        (lastComponent stem).length := (List.takeWhile_sublist _).length_le
    simp only [List.length_append]
    have : 0 < dotFilelist.length := by decide
    omega
  · have : (List.takeWhile (fun c => c != '.') (lastComponent stem)).length ≤
        (lastComponent stem).length := (List.takeWhile_sublist _).length_le
    simp only [List.length_append] at hlen
    omega

theorem drop_suffix (stem suf : List Char) :
    (stem ++ suf).drop ((stem ++ suf).length - suf.length) = suf := by
  have : (stem ++ suf).length - suf.length = stem.length := by simp
  rw [this, List.drop_left]

theorem compare_name_passedOver (sgn : Bool) (t : List Char) (e : Entry) (st : State)
    (h : e.passedOver) : compare_name sgn t e st = Except.ok (0, st) := by
  obtain ⟨h1, h2, h3⟩ := h
  have hsuf : 9 ≤ e.path.length → e.path.drop (e.path.length - 9) ≠ dotFilelist := by
    intro _ hd
    apply h3
    rw [← hd]
    exact List.drop_suffix _ _
  unfold compare_name
  cases hf : e.flag with
  | FTW_NS => exact absurd hf h1
  | FTW_D => rfl
  | FTW_DNR => rfl
  | FTW_DP => rfl
  | FTW_F =>
    have h9 := h2 (by rw [hf]; rfl)
    simp only [if_neg (Nat.not_lt.mpr h9), hsuf h9, ne_eq, not_false_eq_true, if_true]
  | FTW_SL =>
    have h9 := h2 (by rw [hf]; rfl)
    simp only [if_neg (Nat.not_lt.mpr h9), hsuf h9, ne_eq, not_false_eq_true, if_true]
  | FTW_SLN =>
    have h9 := h2 (by rw [hf]; rfl)
    simp only [if_neg (Nat.not_lt.mpr h9), hsuf h9, ne_eq, not_false_eq_true, if_true]

theorem compare_name_manifest (sgn : Bool) (t stem bytes pkg : List Char) (e : Entry)
    (st st' : State) (hflag : e.flag.isFile = true) (hpath : e.path = stem ++ dotFilelist)
    (hfile : e.file = some bytes) (hpkg : package_name e.path = Except.ok pkg)
    (hread : read_lines sgn t pkg (fgets_buffers (PATH_MAX - 1) bytes [])
      { st with opened := st.opened ++ [e.path] } = Except.ok st') :
    compare_name sgn t e st = Except.ok (0, st') := by
  have h9 : ¬ e.path.length < 9 := by
    rw [hpath, List.length_append, show dotFilelist.length = 9 from rfl]; omega
  have hd : e.path.drop (e.path.length - 9) = dotFilelist := by
    rw [hpath]; exact drop_suffix stem dotFilelist
  unfold compare_name
  cases hf : e.flag with
  | FTW_NS => rw [hf] at hflag; exact absurd hflag (by decide)
  | FTW_D => rw [hf] at hflag; exact absurd hflag (by decide)
  | FTW_DNR => rw [hf] at hflag; exact absurd hflag (by decide)
  | FTW_DP => rw [hf] at hflag; exact absurd hflag (by decide)
  | FTW_F => simp only [if_neg h9, hd, ne_eq, not_true_eq_false, if_false, hfile, hpkg, hread]
  | FTW_SL => simp only [if_neg h9, hd, ne_eq, not_true_eq_false, if_false, hfile, hpkg, hread]
  | FTW_SLN => simp only [if_neg h9, hd, ne_eq, not_true_eq_false, if_false, hfile, hpkg, hread]

theorem nftw_passedOver (sgn : Bool) (t : List Char) (pre rest : List Entry) (st : State)
    (h : ∀ x ∈ pre, x.passedOver) :
    nftw sgn t (pre ++ rest) st = nftw sgn t rest st := by
  induction pre with
  | nil => rfl
  | cons x pre ih =>
    have hx := compare_name_passedOver sgn t x st (h x (by simp))
    simp only [List.cons_append, nftw, hx, if_true]
    exact ih (fun y hy => h y (by simp [hy]))

theorem nftw_manifest (sgn : Bool) (t : List Char) (pre post : List Entry) (e : Entry)
    (st st' : State) (hpre : ∀ x ∈ pre, x.passedOver) (hpost : ∀ x ∈ post, x.passedOver)
    (he : compare_name sgn t e st = Except.ok (0, st')) :
    nftw sgn t (pre ++ e :: post) st = Except.ok st' := by
  rw [nftw_passedOver sgn t pre _ st hpre]
  simp only [nftw, he, if_true]
  have := nftw_passedOver sgn t post [] st' hpost
  rw [List.append_nil] at this
  rw [this]; rfl

theorem not_mem_lastComponent (x : Char) (s : List Char) (h : x ∉ s) : x ∉ lastComponent s := by
  intro hx
  simp only [lastComponent, List.mem_reverse] at hx
  exact h (List.mem_reverse.mp ((List.takeWhile_sublist _).subset hx))

/-- The one-line manifest `/usr/local/bin/fooo` scanned for `foo`. -/
theorem scan_fooo (sgn : Bool) (e : Entry) (stem nl : List Char)
    (hflag : e.flag.isFile = true) (hpath : e.path = stem ++ dotFilelist)
    (hlen : e.path.length < PATH_MAX) (hnul : NUL ∉ e.path)
    (hfile : e.file = some ("/usr/local/bin/fooo".toList ++ nl))
    (hnl : nl = [] ∨ nl = ['\n']) :
    ∃ pkg st', package_name e.path = Except.ok pkg ∧
      scan sgn "foo".toList [e] = Except.ok st' ∧
      st'.total_exact_matches = 0 ∧ st'.total_fuzzy_matches = 1 ∧
      st'.fuzzy_entry 0 = some ((fuzzy_text "fooo".toList pkg).take 99) := by
  have hpkg := package_name_ok stem (by rw [← hpath]; exact hlen)
  rw [← hpath] at hpkg
  have hnp : NUL ∉ (lastComponent stem).takeWhile (fun c => c != '.') := by
    intro h
    have h1 := (List.takeWhile_sublist _).subset h
    have h2 : NUL ∉ stem := fun h' => hnul (by rw [hpath]; simp [h'])
    exact not_mem_lastComponent NUL stem h2 h1
  have hst : ({ State.initial with opened := State.initial.opened ++ [e.path] } : State).WF :=
    initial_WF
  have key : ∀ buf : List Char, buf = "/usr/local/bin/fooo".toList ++ nl →
      ∃ st', compare_line sgn "foo".toList
          ((lastComponent stem).takeWhile (fun c => c != '.')) buf
          { State.initial with opened := State.initial.opened ++ [e.path] } = Except.ok st' ∧
        st'.total_exact_matches = 0 ∧ st'.total_fuzzy_matches = 1 ∧
        st'.fuzzy_entry 0 = some ((fuzzy_text "fooo".toList
          ((lastComponent stem).takeWhile (fun c => c != '.'))).take 99) := by
    intro buf hbuf
    have hb : basename (buf.takeWhile (fun x => x != '\n')) = "fooo".toList := by
      rcases hnl with h | h <;> subst h <;> subst hbuf <;> decide
    have hpre : "/usr/local/bin".toList <+: buf ∨ "/usr/local/sbin".toList <+: buf := by
      rcases hnl with h | h <;> subst h <;> subst hbuf
      · exact Or.inl ⟨"/fooo".toList, by decide⟩
      · exact Or.inl ⟨"/fooo\n".toList, by decide⟩
    have hnb : NUL ∉ buf := by
      rcases hnl with h | h <;> subst h <;> subst hbuf <;> decide
    obtain ⟨st', h1, ⟨h2, h3, _⟩, h4, _⟩ :=
      (compare_line_cases sgn "foo".toList _ buf _ hpre hst hnb hnp).2.1
        (by rw [hb]; decide)
        (by rw [hb, get_similarity_fooo]; exact exceeds_finite _ (by norm_num))
        (show (0 : Nat) < 10 by decide)
    rw [hb] at h3
    exact ⟨st', h1, h4, h2, h3⟩
  obtain ⟨st', h1, h2, h3, h4⟩ := key _ rfl
  refine ⟨_, st', hpkg, ?_, h2, h3, h4⟩
  have hbufs : fgets_buffers (PATH_MAX - 1) ("/usr/local/bin/fooo".toList ++ nl) [] =
      ["/usr/local/bin/fooo".toList ++ nl] := by
    rcases hnl with h | h <;> subst h <;> decide
  have hc : cstr ("/usr/local/bin/fooo".toList ++ nl) = "/usr/local/bin/fooo".toList ++ nl := by
    rcases hnl with h | h <;> subst h <;> decide
  have hread : read_lines sgn "foo".toList ((lastComponent stem).takeWhile (fun c => c != '.'))
      (fgets_buffers (PATH_MAX - 1) ("/usr/local/bin/fooo".toList ++ nl) [])
      { State.initial with opened := State.initial.opened ++ [e.path] } = Except.ok st' := by
    rw [hbufs]
    simp only [read_lines, hc, h1]
  have := compare_name_manifest sgn "foo".toList stem _ _ e State.initial st' hflag hpath hfile
    hpkg hread
  simp only [scan, nftw, this, if_true]

theorem binSlash_eq (c : List Char) :
    "/usr/local/bin/".toList ++ c = "/usr/local/bin".toList ++ '/' :: c := rfl

theorem binSlash_not_newline (c : List Char) (hc : '\n' ∉ c) :
    '\n' ∉ "/usr/local/bin/".toList ++ c := by
  simp only [List.mem_append, not_or]
  exact ⟨by decide, hc⟩

theorem binSlash_not_nul (c : List Char) (hc : NUL ∉ c) :
    NUL ∉ "/usr/local/bin/".toList ++ c := by
  simp only [List.mem_append, not_or]
  exact ⟨by decide, hc⟩

/-- The per-line step for the line `/usr/local/bin/c`, with or without its newline,
when `c` is the command searched for. -/
theorem compare_line_exact (sgn : Bool) (p c nl : List Char) (st : State) (hwf : st.WF)
    (hE : st.total_exact_matches < 5) (hp : p.length < 30) (hnp : NUL ∉ p)
    (hc1 : c ≠ []) (hc2 : '/' ∉ c) (hc3 : '\n' ∉ c) (hc4 : NUL ∉ c)
    (hnl : nl = [] ∨ nl = ['\n']) :
    ∃ st', compare_line sgn c p (cstr ("/usr/local/bin/".toList ++ c ++ nl)) st = Except.ok st' ∧
      st.appendsExact st' p ∧ st.sameFuzzy st' := by
  have hnb : NUL ∉ "/usr/local/bin/".toList ++ c ++ nl := by
    have := binSlash_not_nul c hc4
    rcases hnl with h | h <;> subst h
    · simpa using this
    · simp only [List.mem_append, not_or] at this ⊢
      exact ⟨this, by decide⟩
  rw [cstr_of_not_mem _ hnb]
  have htw : ("/usr/local/bin/".toList ++ c ++ nl).takeWhile (fun x => x != '\n') =
      "/usr/local/bin/".toList ++ c := by
    rcases hnl with h | h <;> subst h
    · rw [List.append_nil]; exact takeWhile_all _ _ (binSlash_not_newline c hc3)
    · exact takeWhile_of_not_mem _ _ [] (binSlash_not_newline c hc3)
  have hb : basename (("/usr/local/bin/".toList ++ c ++ nl).takeWhile (fun x => x != '\n')) = c := by
    rw [htw, binSlash_eq]
    exact basename_append_component _ c hc1 hc2
  have hpre : "/usr/local/bin".toList <+: "/usr/local/bin/".toList ++ c ++ nl ∨
      "/usr/local/sbin".toList <+: "/usr/local/bin/".toList ++ c ++ nl := by
    left
    rw [binSlash_eq, List.append_assoc]
    exact List.prefix_append _ _
  exact (compare_line_cases sgn c p _ st hpre hwf hnb hnp).1 hb hE hp

/-- The buffers `fgets` delivers for a file that holds one line without a newline inside. -/
theorem fgets_buffers_one (line nl : List Char) (hline : '\n' ∉ line) (hne : line ≠ [])
    (hlen : line.length ≤ PATH_MAX - 1) (hnl : nl = [] ∨ nl = ['\n']) :
    fgets_buffers (PATH_MAX - 1) (line ++ nl) [] = [line ++ nl] ∨
      (fgets_buffers (PATH_MAX - 1) (line ++ nl) [] = [line, ['\n']] ∧ nl = ['\n']) := by
  by_cases hfull : line.length = PATH_MAX - 1
  · have h := fgets_buffers_full (PATH_MAX - 1) line nl [] hline hne (by simpa using hfull)
    rcases hnl with h' | h' <;> subst h'
    · left; rw [h]; simp [fgets_buffers]
    · right; rw [h]; exact ⟨by simp [fgets_buffers], rfl⟩
  · left
    have hlt : ([] : List Char).length + line.length < PATH_MAX - 1 := by
      simp only [List.length_nil]; omega
    rcases hnl with h' | h' <;> subst h'
    · rw [List.append_nil]
      have := fgets_buffers_last (PATH_MAX - 1) line [] hline (by simpa using hne) hlt
      simpa using this
    · have := fgets_buffers_line (PATH_MAX - 1) line [] hline hlt
      simpa using this

theorem compare_line_newline (sgn : Bool) (t p : List Char) (st : State) :
    compare_line sgn t p (cstr ['\n']) st = Except.ok st :=
  compare_line_no_match sgn t p _ st (by decide) (by decide)

/-- The scan of a tree whose only manifest is `p.filelist` with the single line
`/usr/local/bin/c`, for the command `c`. -/
theorem scan_exact (sgn : Bool) (p c dir nl : List Char) (pre post : List Entry) (e : Entry)
    (hp : IsPackageName p) (hc : IsCommandName c) (hc5 : c.length ≤ 4080)
    (hflag : e.flag.isFile = true) (hpath : e.path = dir ++ '/' :: (p ++ dotFilelist))
    (hfile : e.file = some ("/usr/local/bin/".toList ++ c ++ nl))
    (hnl : nl = [] ∨ nl = ['\n'])
    (hpre : ∀ x ∈ pre, x.passedOver) (hpost : ∀ x ∈ post, x.passedOver) :
    ∃ st', scan sgn c (pre ++ e :: post) = Except.ok st' ∧
      st'.total_exact_matches = 1 ∧ st'.exact_entry 0 = some p ∧
      st'.total_fuzzy_matches = 0 := by
  obtain ⟨hp1, hp2, hp3, hp5, hp4⟩ := hp
  obtain ⟨hc1, hc2, hc3, hc4⟩ := hc
  have hpath' : e.path = (dir ++ '/' :: p) ++ dotFilelist := by rw [hpath]; simp
  have hpkg : package_name e.path = Except.ok p := by
    have hb : basename e.path = p ++ dotFilelist := by
      rw [hpath]
      apply basename_append_component
      · simp [hp1]
      · simp only [List.mem_append, not_or]; exact ⟨hp3, by decide⟩
    have htw : (p ++ dotFilelist).takeWhile (fun x => x != '.') = p := by
      rw [dotFilelist_eq]; exact takeWhile_of_not_mem '.' p _ hp2
    simp only [package_name, hb, htw]
    rw [if_pos]
    refine ⟨?_, ?_⟩
    · rw [List.length_append, show dotFilelist.length = 9 from rfl]; omega
    · simp only [PATH_MAX]; omega
  have hst : ({ State.initial with opened := State.initial.opened ++ [e.path] } : State).WF :=
    initial_WF
  have hread : ∃ st', read_lines sgn c p
      (fgets_buffers (PATH_MAX - 1) ("/usr/local/bin/".toList ++ c ++ nl) [])
      { State.initial with opened := State.initial.opened ++ [e.path] } = Except.ok st' ∧
      st'.total_exact_matches = 1 ∧ st'.exact_entry 0 = some p ∧
      st'.total_fuzzy_matches = 0 := by
    have hlen : ("/usr/local/bin/".toList ++ c).length ≤ PATH_MAX - 1 := by
      rw [List.length_append, show "/usr/local/bin/".toList.length = 15 from rfl]
      simp only [PATH_MAX]; omega
    rcases fgets_buffers_one ("/usr/local/bin/".toList ++ c) nl (binSlash_not_newline c hc3)
      (by simp [binSlash_eq]) hlen hnl with hb | ⟨hb, _⟩
    · obtain ⟨st', h1, ⟨h2, h3, _⟩, h4, _⟩ := compare_line_exact sgn p c nl _ hst
        (show (0 : Nat) < 5 by decide) hp4 hp5 hc1 hc2 hc3 hc4 hnl
      refine ⟨st', ?_, h2, h3, h4⟩
      rw [hb]
      simp only [read_lines, h1]
    · obtain ⟨st', h1, ⟨h2, h3, _⟩, h4, _⟩ := compare_line_exact sgn p c [] _ hst
        (show (0 : Nat) < 5 by decide) hp4 hp5 hc1 hc2 hc3 hc4 (Or.inl rfl)
      rw [List.append_nil] at h1
      refine ⟨st', ?_, h2, h3, h4⟩
      rw [hb]
      simp only [read_lines, h1, compare_line_newline]
  obtain ⟨st', hread, h2, h3, h4⟩ := hread
  have hcn := compare_name_manifest sgn c (dir ++ '/' :: p) _ p e State.initial st' hflag hpath'
    hfile hpkg hread
  refine ⟨st', ?_, h2, h3, h4⟩
  exact nftw_manifest sgn c pre post e State.initial st' hpre hpost hcn

/-- A buffer whose base name differs from the command leaves the exact matches as
they are. -/
theorem compare_line_ne (sgn : Bool) (t p buf : List Char) (st : State)
    (hne : basename (buf.takeWhile (fun x => x != '\n')) ≠ t)
    (hF : st.total_fuzzy_matches < 10) :
    ∃ st', compare_line sgn t p buf st = Except.ok st' ∧
      st'.total_exact_matches = st.total_exact_matches := by
  have hm : ∃ st', match_line sgn t p buf st = Except.ok st' ∧
      st'.total_exact_matches = st.total_exact_matches := by
    simp only [match_line, hne, if_false]
    split_ifs
    · exact ⟨{ st with
          fuzzy_matches := store st.fuzzy_matches (100 * st.total_fuzzy_matches)
            (snprintf 100 (fuzzy_text (basename (buf.takeWhile (fun c => c != '\n'))) p))
          total_fuzzy_matches := st.total_fuzzy_matches + 1 },
        by simp only [record_fuzzy, if_pos hF], rfl⟩
    · exact ⟨st, rfl, rfl⟩
  simp only [compare_line, cmd_search_path, try_paths]
  split_ifs
  · exact hm
  · exact hm
  · exact ⟨st, rfl, rfl⟩

/-- A line of 4096 bytes is read in two buffers, and the base name of the first one is
not the command: the exact matches stay as they are. -/
theorem scan_long_command (sgn : Bool) (c1 : List Char) (x : Char) (e : Entry)
    (hlen : c1.length = 4080) (h1 : '/' ∉ c1) (h2 : '\n' ∉ c1) (h3 : NUL ∉ c1)
    (hx' : x ≠ '\n')
    (hflag : e.flag.isFile = true) (hpath : e.path = "/m/foo".toList ++ dotFilelist)
    (hfile : e.file = some ("/usr/local/bin/".toList ++ (c1 ++ [x]) ++ ['\n'])) :
    ∃ st', scan sgn (c1 ++ [x]) [e] = Except.ok st' ∧ st'.total_exact_matches = 0 := by
  have hnn : '\n' ∉ "/usr/local/bin/".toList ++ c1 := binSlash_not_newline _ h2
  have hnul : NUL ∉ "/usr/local/bin/".toList ++ c1 := binSlash_not_nul _ h3
  have hne1 : c1 ≠ [] := by
    intro h; rw [h] at hlen; exact absurd hlen (by decide)
  have hbufs : fgets_buffers (PATH_MAX - 1)
      ("/usr/local/bin/".toList ++ (c1 ++ [x]) ++ ['\n']) [] =
      ["/usr/local/bin/".toList ++ c1, [x, '\n']] := by
    have e : "/usr/local/bin/".toList ++ (c1 ++ [x]) ++ ['\n'] =
        ("/usr/local/bin/".toList ++ c1) ++ ([x] ++ ['\n']) := by
      simp only [List.append_assoc]
    have hne0 : "/usr/local/bin/".toList ++ c1 ≠ [] :=
      List.append_ne_nil_of_left_ne_nil (by decide) _
    rw [e, fgets_buffers_full (PATH_MAX - 1) _ _ [] hnn hne0
      (by rw [List.length_append, hlen]; rfl)]
    have := fgets_buffers_line (PATH_MAX - 1) [x] []
      (by simpa using hx'.symm) (by simp [PATH_MAX])
    rw [this]; rfl
  have hb : basename (("/usr/local/bin/".toList ++ c1).takeWhile (fun y => y != '\n')) = c1 := by
    rw [takeWhile_all _ _ hnn, binSlash_eq]
    exact basename_append_component _ _ hne1 h1
  have hne : basename ((cstr ("/usr/local/bin/".toList ++ c1)).takeWhile
      (fun y => y != '\n')) ≠ c1 ++ [x] := by
    rw [cstr_of_not_mem _ hnul, hb]
    intro h
    have := congrArg List.length h
    simp only [List.length_append, List.length_singleton] at this
    omega
  obtain ⟨st1, g1, g2⟩ := compare_line_ne sgn (c1 ++ [x]) "foo".toList
    (cstr ("/usr/local/bin/".toList ++ c1))
    { State.initial with opened := State.initial.opened ++ [e.path] } hne
    (show (0 : Nat) < 10 by decide)
  have hshort : ∀ d : List Char, 3 ≤ d.length → ¬ d <+: cstr [x, '\n'] := by
    intro d hd hp
    have h := hp.length_le
    have h' : (cstr [x, '\n']).length ≤ 2 := (List.takeWhile_sublist _).length_le
    omega
  have g3 : compare_line sgn (c1 ++ [x]) "foo".toList (cstr [x, '\n']) st1 = Except.ok st1 :=
    compare_line_no_match sgn _ _ _ st1 (hshort _ (by decide)) (hshort _ (by decide))
  have hread : read_lines sgn (c1 ++ [x]) "foo".toList
      (fgets_buffers (PATH_MAX - 1) ("/usr/local/bin/".toList ++ (c1 ++ [x]) ++ ['\n']) [])
      { State.initial with opened := State.initial.opened ++ [e.path] } = Except.ok st1 := by
    rw [hbufs]
    simp only [read_lines, g1, g3]
  have hpkg : package_name e.path = Except.ok "foo".toList := by
    rw [hpath, package_name_ok _ (by decide)]
    exact congrArg Except.ok (by decide)
  have hcn := compare_name_manifest sgn (c1 ++ [x]) "/m/foo".toList _ "foo".toList e
    State.initial st1 hflag hpath hfile hpkg hread
  exact ⟨st1, by simp only [scan, nftw, hcn, if_true], g2⟩

theorem scan_longManifest (sgn : Bool) :
    ∃ st', scan sgn longCommand [longManifest] = Except.ok st' ∧
      st'.total_exact_matches = 0 :=
  scan_long_command sgn (List.replicate 4080 'a') 'a' longManifest
    (List.length_replicate _ _) (not_mem_replicate _ _ _ (by decide))
    (not_mem_replicate _ _ _ (by decide)) (not_mem_replicate _ _ _ (by decide))
    (by decide) rfl rfl rfl

/-! ## Section 5: the table and the Levenshtein distance -/

theorem lev_nil_left (b : List Char) : lev [] b = b.length := by
  simp [lev]

theorem lev_cons_cons (x y : Char) (a b : List Char) :
    lev (x :: a) (y :: b) =
      min (lev a (y :: b) + 1) (min (lev (x :: a) b + 1) (lev a b + if x = y then 0 else 1)) := by
  rw [lev]

/-- Adding a byte in front of the second string changes the distance by at most one. -/
theorem lev_le_cons_right (a : List Char) : ∀ (b : List Char) (y : Char),
    lev a b ≤ lev a (y :: b) + 1 := by
  induction a with
  | nil => intro b y; simp only [lev_nil_left, List.length_cons]; omega
  | cons x a ih =>
    intro b y
    cases b with
    | nil =>
      have h := ih [] y
      rw [lev_cons_cons, lev_nil_right, lev_nil_right] at *
      simp only [List.length_cons] at *
      split_ifs <;> omega
    | cons y' b =>
      have h1 := ih (y' :: b) y
      rw [lev_cons_cons x y, lev_cons_cons x y']
      split_ifs <;> omega

/-- Adding a byte in front of the first string changes the distance by at most one. -/
theorem lev_le_cons_left (b : List Char) : ∀ (a : List Char) (x : Char),
    lev a b ≤ lev (x :: a) b + 1 := by
  induction b with
  | nil => intro a x; simp only [lev_nil_right, List.length_cons]; omega
  | cons y b ih =>
    intro a x
    cases a with
    | nil =>
      have h := ih [] x
      rw [lev_cons_cons, lev_nil_left, lev_nil_left] at *
      simp only [List.length_cons] at *
      split_ifs <;> omega
    | cons x' a =>
      have h1 := ih (x' :: a) x
      rw [lev_cons_cons x y, lev_cons_cons x' y]
      split_ifs <;> omega

/-- Equal first bytes can be dropped. -/
theorem lev_cons_same (x : Char) (a b : List Char) : lev (x :: a) (x :: b) = lev a b := by
  have h1 := lev_le_cons_right a b x
  have h2 := lev_le_cons_left b a x
  rw [lev_cons_cons]
  simp only [if_true]
  omega

/-- The three-way recursion also holds at the ends of the strings. -/
theorem lev_snoc_snoc (x y : Char) (a : List Char) : ∀ b : List Char,
    lev (a ++ [x]) (b ++ [y]) =
      min (lev a (b ++ [y]) + 1) (min (lev (a ++ [x]) b + 1) (lev a b + if x = y then 0 else 1)) := by
  induction a with
  | nil =>
    intro b
    induction b with
    | nil =>
      simp only [List.nil_append, lev_cons_cons, lev_nil_left, lev_nil_right,
        List.length_cons, List.length_nil]
    | cons y0 b ihb =>
      simp only [List.nil_append, List.cons_append] at ihb ⊢
      rw [lev_cons_cons x y0 [] (b ++ [y]), ihb, lev_cons_cons x y0 [] b]
      simp only [lev_nil_left, List.length_cons, List.length_append, List.length_nil]
      split_ifs <;> omega
  | cons x0 a iha =>
    intro b
    induction b with
    | nil =>
      have h := iha []
      simp only [List.nil_append, List.cons_append] at h ⊢
      rw [lev_cons_cons x0 y (a ++ [x]) [], h, lev_cons_cons x0 y a []]
      simp only [lev_nil_right, List.length_cons, List.length_append, List.length_nil]
      split_ifs <;> omega
    | cons y0 b ihb =>
      have h1 := iha (y0 :: b)
      have h2 := iha b
      simp only [List.cons_append] at h1 h2 ihb ⊢
      rw [lev_cons_cons x0 y0 (a ++ [x]) (b ++ [y]), h1, ihb, h2,
        lev_cons_cons x0 y0 a (b ++ [y]), lev_cons_cons x0 y0 (a ++ [x]) b,
        lev_cons_cons x0 y0 a b]
      generalize lev a (y0 :: (b ++ [y])) = A1
      generalize lev (a ++ [x]) (y0 :: b) = A2
      generalize lev a (y0 :: b) = A3
      generalize lev (x0 :: a) (b ++ [y]) = B1
      generalize lev (x0 :: (a ++ [x])) b = B2
      generalize lev (x0 :: a) b = B3
      generalize lev a (b ++ [y]) = C1
      generalize lev (a ++ [x]) b = C2
      generalize lev a b = C3
      generalize (if x = y then 0 else 1) = d
      generalize (if x0 = y0 then 0 else 1) = d0
      simp only [← min_add_add_right]
      ac_rfl

/-- The distance of the reversed strings is the distance of the strings. -/
theorem lev_reverse (a : List Char) : ∀ b : List Char, lev a.reverse b.reverse = lev a b := by
  induction a with
  | nil => intro b; simp [lev_nil_left]
  | cons x a iha =>
    intro b
    induction b with
    | nil => simp [lev_nil_right]
    | cons y b ihb =>
      have h1 := iha (y :: b)
      have h2 := iha b
      simp only [List.reverse_cons] at h1 ihb ⊢
      rw [lev_snoc_snoc, h1, ihb, h2, lev_cons_cons]

theorem take_succ_reverse (a : List Char) (i : Nat) (hi : i < a.length) :
    (a.take (i + 1)).reverse = charAt a i :: (a.take i).reverse := by
  rw [List.take_succ, List.getElem?_eq_getElem hi]
  simp [charAt, List.getD_eq_getElem?_getD, List.getElem?_eq_getElem hi]

/-- Within 127 rows and columns, every cell of the table holds the Levenshtein distance
of the two prefixes. -/
theorem memoCell_eq_lev (sgn : Bool) (a b : List Char) (i j : Nat)
    (hi : i ≤ a.length) (hj : j ≤ b.length) (hi' : i ≤ 127) (hj' : j ≤ 127) :
    memoCell sgn a b i j = ((lev (a.take i).reverse (b.take j).reverse : Nat) : Int) := by
  induction i generalizing j with
  | zero =>
    rw [memoCell_zero_left, wrapChar_of_range sgn j (by omega) (by omega)]
    simp [lev_nil_left, hj]
  | succ i ih =>
    induction j with
    | zero =>
      rw [memoCell_zero_right, wrapChar_of_range sgn _ (by omega) (by omega)]
      simp only [List.take_zero, List.reverse_nil, lev_nil_right, List.length_reverse,
        List.length_take]
      congr 1
      omega
    | succ j ihj =>
      have hd := ih j (by omega) (by omega) (by omega) (by omega)
      have hu := ih (j + 1) (by omega) hj (by omega) hj'
      have hl := ihj (by omega) (by omega)
      have hr := memoCell_range sgn a b i j (by omega) (by omega)
      rw [take_succ_reverse a i (by omega)] at hl ⊢
      rw [take_succ_reverse b j (by omega)] at hu ⊢
      rw [memoCell_succ, hd, hl, hu]
      rw [hd] at hr
      have hcc := lev_cons_cons (charAt a i) (charAt b j) (a.take i).reverse (b.take j).reverse
      have hL1 := lev_le_cons_right (a.take i).reverse (b.take j).reverse (charAt b j)
      have hL2 := lev_le_cons_left (b.take j).reverse (a.take i).reverse (charAt a i)
      rw [hcc]
      generalize lev (a.take i).reverse (b.take j).reverse = D at hr hL1 hL2 ⊢
      generalize lev (charAt a i :: (a.take i).reverse) (b.take j).reverse = L at hL2 ⊢
      generalize lev (a.take i).reverse (charAt b j :: (b.take j).reverse) = U at hL1 ⊢
      by_cases hne : charAt a i = charAt b j
      · simp only [cellValue, hne, ne_eq, not_true_eq_false, decide_False, Bool.false_eq_true,
          if_false, if_true]
        push_cast
        omega
      · simp only [cellValue, hne, ne_eq, not_false_eq_true, decide_True, if_true, if_false]
        have hmax : ((max i j : Nat) : Int) ≤ 126 := by
          have : max i j ≤ 126 := by omega
          exact_mod_cast this
        have hD : (D : Int) ≤ 126 := by
          have := hr.2
          push_cast at this hmax
          omega
        split_ifs
        all_goals
          rw [wrapChar_of_range sgn _ (by omega) (by omega)]
          push_cast
          omega

/-- For strings of at most 127 bytes the table cell read by `get_similarity` is the
Levenshtein distance of the two strings. -/
theorem memoCell_final_eq_lev (sgn : Bool) (a b : List Char)
    (ha : a.length ≤ 127) (hb : b.length ≤ 127) :
    memoCell sgn a b a.length b.length = ((lev a b : Nat) : Int) := by
  rw [memoCell_eq_lev sgn a b _ _ le_rfl le_rfl ha hb, List.take_length, List.take_length,
    lev_reverse]

/-- For strings of at most 127 bytes `get_similarity` is the normalised Levenshtein
distance `(|a| - lev a b) / |a|`. -/
theorem get_similarity_eq_lev (sgn : Bool) (a b : List Char) (hne : a ≠ [])
    (ha : a.length ≤ 127) (hb : b.length ≤ 127) :
    get_similarity sgn a b =
      Score.finite (((a.length : ℚ) - (lev a b : ℚ)) / (a.length : ℚ)) := by
  have hlen : a.length ≠ 0 := by simpa using hne
  rw [get_similarity_eq, memoCell_final_eq_lev sgn a b ha hb, floatDiv_pos _ _ hlen]
  push_cast
  rfl

/-- For strings of at most 127 bytes every cell the function fills holds the edit
distance between the first `i` bytes of `a` and the first `j` bytes of `b`. -/
theorem fillMemo_eq_lev (sgn : Bool) (a b : List Char) (i j : Nat)
    (ha : a.length ≤ 127) (hb : b.length ≤ 127) (hi : i ≤ a.length) (hj : j ≤ b.length) :
    fillMemo sgn a b i j = ((lev (a.take i) (b.take j) : Nat) : Int) := by
  rw [fillMemo_eq sgn a b i j hi hj,
    memoCell_eq_lev sgn a b i j hi hj (by omega) (by omega), lev_reverse]

/-! ## Section 6: the claims -/

/-- C1: the claim asks that `get_similarity a b` be `(|a| - lev a b) / |a|` for every
non-empty `a`. For `a` = 300 bytes `'a'` and `b` empty the distance is 300 and the
claimed score 0, but cell `memo[300][0]` holds `300 mod 256 = 44` (signed and
unsigned `char` alike) and the function returns `256/300 = 64/75`. With signed `char`,
200 bytes already give the cell `200 - 256 = -56` and the score `256/200 = 32/25`. -/
theorem get_similarity_long_not_levenshtein (sgn : Bool) :
    get_similarity sgn (List.replicate 300 'a') [] = Score.finite (64 / 75) ∧
    fillMemo sgn (List.replicate 300 'a') [] 300 0 = 44 ∧
    lev (List.replicate 300 'a') [] = 300 ∧
    get_similarity true (List.replicate 200 'a') [] = Score.finite (32 / 25) ∧
    lev (List.replicate 200 'a') [] = 200 := by
  refine ⟨?_, ?_, ?_, ?_, ?_⟩
  · rw [get_similarity_replicate_nil _ _ _ (by decide)]
    cases sgn <;> norm_num [wrapChar]
  · rw [fillMemo_eq _ _ _ _ _ (by rw [List.length_replicate]) (by simp), memoCell_zero_right]
    cases sgn <;> norm_num [wrapChar]
  · rw [lev_nil_right, List.length_replicate]
  · rw [get_similarity_replicate_nil _ _ _ (by decide)]
    norm_num [wrapChar]
  · rw [lev_nil_right, List.length_replicate]

/-- C2: for every non-empty string `s`, `get_similarity s s` is exactly 1 (for signed
and for unsigned `char`, and for every length). -/
theorem get_similarity_self (sgn : Bool) (s : List Char) (hs : s ≠ []) :
    get_similarity sgn s s = Score.finite 1 :=
  get_similarity_diag sgn s hs

theorem get_similarity_self_witness :
    "abc".toList ≠ [] ∧ get_similarity true "abc".toList "abc".toList = Score.finite 1 :=
  ⟨by decide, get_similarity_self true "abc".toList (by decide)⟩

/-- C3: the claim asks that `get_similarity s ""` be 0 for non-empty `s` of any length.
For `s` = 256 bytes `'a'` cell `memo[256][0]` holds `256 mod 256 = 0` and the score is
1; with signed `char`, 128 bytes already give cell `-128` and score 2. -/
theorem get_similarity_empty_target_long (sgn : Bool) :
    get_similarity sgn (List.replicate 256 'a') [] = Score.finite 1 ∧
    get_similarity true (List.replicate 128 'a') [] = Score.finite 2 := by
  constructor
  · rw [get_similarity_replicate_nil _ _ _ (by decide)]
    cases sgn <;> norm_num [wrapChar]
  · rw [get_similarity_replicate_nil _ _ _ (by decide)]
    norm_num [wrapChar]

/-- C4: the claim asks that `get_similarity a (a ++ [c])` be `(|a| - 1) / |a|` for every
non-empty `a`. With signed `char`, for `a` = 127 bytes `'a'` and `c = 'z'` the last
column starts at `memo[0][128] = -128`, cell `memo[127][128]` holds `-1`, and the score
is `128/127` instead of `126/127`. -/
theorem get_similarity_extension_signed :
    get_similarity true (List.replicate 127 'a') (List.replicate 127 'a' ++ ['z']) =
      Score.finite (128 / 127) ∧
    fillMemo true (List.replicate 127 'a') (List.replicate 127 'a' ++ ['z']) 127 128 = -1 := by
  refine ⟨get_similarity_signed_127, ?_⟩
  rw [fillMemo_eq _ _ _ _ _ (by rw [List.length_replicate])
    (by rw [List.length_append, List.length_replicate]; decide)]
  have := memoCell_replicate_last_column 'a' 'z' (by decide) 127 le_rfl
  rw [this]; norm_num

/-- C6 (as amended): scanning a manifest whose only line is `/usr/local/bin/fooo`, with
or without a final newline, for the command `foo` yields zero exact matches and one
fuzzy match; the score of the pair is `get_similarity "fooo" "foo" = (4 - 1) / 4`,
above the threshold. -/
theorem scan_fooo_one_fuzzy (sgn : Bool) (e : Entry) (stem nl : List Char)
    (hflag : e.flag.isFile = true) (hpath : e.path = stem ++ dotFilelist)
    (hlen : e.path.length < PATH_MAX) (hnul : NUL ∉ e.path)
    (hfile : e.file = some ("/usr/local/bin/fooo".toList ++ nl))
    (hnl : nl = [] ∨ nl = ['\n']) :
    get_similarity sgn "fooo".toList "foo".toList = Score.finite (3 / 4) ∧
    (Score.finite (3 / 4)).exceeds = true ∧
    ∃ pkg st', package_name e.path = Except.ok pkg ∧
      scan sgn "foo".toList [e] = Except.ok st' ∧
      st'.total_exact_matches = 0 ∧ st'.total_fuzzy_matches = 1 ∧
      st'.fuzzy_entry 0 = some ((fuzzy_text "fooo".toList pkg).take 99) :=
  ⟨get_similarity_fooo sgn, exceeds_finite _ (by norm_num),
    scan_fooo sgn e stem nl hflag hpath hlen hnul hfile hnl⟩

/-- Witness of C6: the manifest `/tree/fooo.filelist` with the line
`/usr/local/bin/fooo` and no final newline. -/
theorem scan_fooo_one_fuzzy_witness :
    Flag.FTW_F.isFile = true ∧
    "/tree/fooo.filelist".toList = "/tree/fooo".toList ++ dotFilelist ∧
    "/tree/fooo.filelist".toList.length < PATH_MAX ∧
    NUL ∉ "/tree/fooo.filelist".toList ∧
    ∃ pkg st', package_name "/tree/fooo.filelist".toList = Except.ok pkg ∧
      scan false "foo".toList
        [{ path := "/tree/fooo.filelist".toList, flag := Flag.FTW_F,
           file := some ("/usr/local/bin/fooo".toList ++ []), errno := 0 }] = Except.ok st' ∧
      st'.total_exact_matches = 0 ∧ st'.total_fuzzy_matches = 1 ∧
      st'.fuzzy_entry 0 = some ((fuzzy_text "fooo".toList pkg).take 99) :=
  ⟨rfl, rfl, by decide, by decide,
    (scan_fooo_one_fuzzy false
      { path := "/tree/fooo.filelist".toList, flag := Flag.FTW_F,
        file := some ("/usr/local/bin/fooo".toList ++ []), errno := 0 }
      "/tree/fooo".toList [] rfl rfl (by decide) (by decide) rfl (Or.inl rfl)).2.2⟩

/-- Counterexample to C6 as stated: the scan of `/m/bar.filelist` with the single line
`/usr/local/bin/fooo` for `foo` records one fuzzy match, not zero. -/
theorem scan_fooo_counterexample :
    ∃ st', scan true "foo".toList
        [{ path := "/m/bar.filelist".toList, flag := Flag.FTW_F,
           file := some "/usr/local/bin/fooo\n".toList, errno := 0 }] = Except.ok st' ∧
      st'.total_fuzzy_matches = 1 ∧
      st'.fuzzy_entry 0 = some "Command 'fooo' from package bar".toList := by
  obtain ⟨pkg, st', h1, h2, _, h4, h5⟩ := scan_fooo true
    { path := "/m/bar.filelist".toList, flag := Flag.FTW_F,
      file := some "/usr/local/bin/fooo\n".toList, errno := 0 }
    "/m/bar".toList ['\n'] rfl rfl (by decide) (by decide) rfl (Or.inr rfl)
  have hp : package_name "/m/bar.filelist".toList = Except.ok "bar".toList := by
    rw [show "/m/bar.filelist".toList = "/m/bar".toList ++ dotFilelist from rfl,
      package_name_ok _ (by decide)]
    exact congrArg Except.ok (by decide)
  have hpkg : pkg = "bar".toList := by
    have := h1.symm.trans hp
    exact Except.ok.inj this
  subst hpkg
  exact ⟨st', h2, h4, by rw [h5]; decide⟩

/-- C7 (as amended): for every package name `p` (non-empty, free of `'.'` and `'/'`,
shorter than 30 bytes) and every command name `c` (non-empty, free of `'/'` and
newline) of at most 4080 bytes, scanning a tree whose only manifest is `p.filelist`
with the single line `/usr/local/bin/c` for the command `c` yields exactly one exact
match, whose package is `p`, and zero fuzzy matches. -/
theorem scan_single_exact (sgn : Bool) (p c dir nl : List Char) (pre post : List Entry)
    (e : Entry) (hp : IsPackageName p) (hc : IsCommandName c) (hc5 : c.length ≤ 4080)
    (hflag : e.flag.isFile = true) (hpath : e.path = dir ++ '/' :: (p ++ dotFilelist))
    (hfile : e.file = some ("/usr/local/bin/".toList ++ c ++ nl))
    (hnl : nl = [] ∨ nl = ['\n'])
    (hpre : ∀ x ∈ pre, x.passedOver) (hpost : ∀ x ∈ post, x.passedOver) :
    ∃ st', scan sgn c (pre ++ e :: post) = Except.ok st' ∧
      st'.total_exact_matches = 1 ∧ st'.exact_entry 0 = some p ∧
      st'.total_fuzzy_matches = 0 :=
  scan_exact sgn p c dir nl pre post e hp hc hc5 hflag hpath hfile hnl hpre hpost

/-- Witness of C7: the tree `/tree` with the manifest `/tree/foo.filelist` holding
the line `/usr/local/bin/foo`, scanned for `foo`. -/
theorem scan_single_exact_witness :
    IsPackageName "foo".toList ∧ IsCommandName "foo".toList ∧ "foo".toList.length ≤ 4080 ∧
    fooManifest.flag.isFile = true ∧
    fooManifest.path = "/tree".toList ++ '/' :: ("foo".toList ++ dotFilelist) ∧
    fooManifest.file = some ("/usr/local/bin/".toList ++ "foo".toList ++ ['\n']) ∧
    (∀ x ∈ [treeRoot], x.passedOver) ∧
    ∃ st', scan true "foo".toList ([treeRoot] ++ fooManifest :: []) = Except.ok st' ∧
      st'.total_exact_matches = 1 ∧ st'.exact_entry 0 = some "foo".toList ∧
      st'.total_fuzzy_matches = 0 := by
  have hp : IsPackageName "foo".toList := by unfold IsPackageName; decide
  have hc : IsCommandName "foo".toList := by unfold IsCommandName; decide
  have hpre : ∀ x ∈ [treeRoot], x.passedOver := by
    intro x hx
    rw [List.mem_singleton] at hx
    subst hx
    exact ⟨by decide, by decide, by decide⟩
  exact ⟨hp, hc, by decide, rfl, rfl, rfl, hpre,
    scan_single_exact true "foo".toList "foo".toList "/tree".toList ['\n'] [treeRoot] []
      fooManifest hp hc (by decide) rfl rfl rfl (Or.inr rfl) hpre
      (fun _ h => absurd h (List.not_mem_nil _))⟩

/-- Counterexample to C7 as stated: for the command of 4081 bytes `'a'` the line
`/usr/local/bin/aaa...` has 4096 bytes and `fgets` delivers it in two buffers, the
first with a base name of 4080 bytes; the scan of `/m/foo.filelist` records no exact
match. -/
theorem scan_long_command_counterexample :
    IsCommandName longCommand ∧ IsPackageName "foo".toList ∧
    ∃ st', scan true longCommand [longManifest] = Except.ok st' ∧
      st'.total_exact_matches = 0 := by
  refine ⟨⟨?_, ?_, ?_, ?_⟩, by unfold IsPackageName; decide, scan_longManifest true⟩
  · exact List.append_ne_nil_of_right_ne_nil _ (by decide)
  all_goals
    simp only [longCommand, List.mem_append, not_or]
    exact ⟨not_mem_replicate _ _ _ (by decide), by decide⟩

/-- C9: the claim asks that a line such as `/usr/local/bin-extra/foo`,
`/usr/local/binfoo` or `/usr/local/bin` never yields a candidate. The test of source
line 101 compares the first 14 bytes only: each of the three lines yields a candidate
(`foo`, `binfoo`, `bin`) and, when that is the command searched for, an exact match. -/
theorem compare_line_outside_directory (sgn : Bool) :
    (∃ st', compare_line sgn "foo".toList "pkg".toList "/usr/local/bin-extra/foo\n".toList
        State.initial = Except.ok st' ∧
      st'.total_exact_matches = 1 ∧ st'.exact_entry 0 = some "pkg".toList) ∧
    (∃ st', compare_line sgn "binfoo".toList "pkg".toList "/usr/local/binfoo\n".toList
        State.initial = Except.ok st' ∧
      st'.total_exact_matches = 1 ∧ st'.exact_entry 0 = some "pkg".toList) ∧
    (∃ st', compare_line sgn "bin".toList "pkg".toList "/usr/local/bin\n".toList
        State.initial = Except.ok st' ∧
      st'.total_exact_matches = 1 ∧ st'.exact_entry 0 = some "pkg".toList) := by
  refine ⟨exact_outside_directory sgn, ?_, ?_⟩
  · obtain ⟨st', h1, ⟨h2, h3, _⟩, _⟩ :=
      (compare_line_cases sgn "binfoo".toList "pkg".toList "/usr/local/binfoo\n".toList
        State.initial (Or.inl ⟨"foo\n".toList, by decide⟩) initial_WF (by decide)
        (by decide)).1 (by decide) (by decide) (by decide)
    exact ⟨st', h1, h2, h3⟩
  · obtain ⟨st', h1, ⟨h2, h3, _⟩, _⟩ :=
      (compare_line_cases sgn "bin".toList "pkg".toList "/usr/local/bin\n".toList
        State.initial (Or.inl ⟨"\n".toList, by decide⟩) initial_WF (by decide)
        (by decide)).1 (by decide) (by decide) (by decide)
    exact ⟨st', h1, h2, h3⟩

/-- C10 (as amended): for every walked entry other than a failed `stat` (`FTW_NS`)
whose path, when the entry is a file or symbolic link, has at least 9 bytes and does
not end in `.filelist`, `compare_name` returns 0 and leaves the state unchanged (the
match arrays, the counts, and the trace of opened files), whatever the file holds. -/
theorem compare_name_not_manifest (sgn : Bool) (t : List Char) (e : Entry) (st : State)
    (h1 : e.flag ≠ Flag.FTW_NS) (h2 : e.flag.isFile = true → 9 ≤ e.path.length)
    (h3 : ¬ dotFilelist <:+ e.path) :
    compare_name sgn t e st = Except.ok (0, st) :=
  compare_name_passedOver sgn t e st ⟨h1, h2, h3⟩

/-- Witness of C10: the regular file `/tree/notes.txt`, which names `foo` under
`/usr/local/bin`. -/
theorem compare_name_not_manifest_witness :
    Flag.FTW_F ≠ Flag.FTW_NS ∧ (Flag.FTW_F.isFile = true → 9 ≤ "/tree/notes.txt".toList.length) ∧
    (¬ dotFilelist <:+ "/tree/notes.txt".toList) ∧
    compare_name true "foo".toList
      { path := "/tree/notes.txt".toList, flag := Flag.FTW_F,
        file := some "/usr/local/bin/foo\n".toList, errno := 0 }
      State.initial = Except.ok (0, State.initial) :=
  ⟨by decide, fun _ => by decide, by decide,
    compare_name_not_manifest true _ _ _ (by decide) (fun _ => by decide) (by decide)⟩

/-- Counterexample to C10 as stated: for the entry `/tree/unreadable` with flag `FTW_NS`,
whose path does not end in `.filelist`, `compare_name` does not return: the process
exits with `errno`. -/
theorem compare_name_stat_failure :
    ¬ dotFilelist <:+ "/tree/unreadable".toList ∧
    compare_name true "foo".toList
      { path := "/tree/unreadable".toList, flag := Flag.FTW_NS, file := none, errno := 13 }
      State.initial = Except.error (Fault.exit 13) :=
  ⟨by decide, rfl⟩

/-! ## Section 7: lemmas on base names, bounds of the score, the report and the capacities -/

/-- The first `'.'` of a base name splits it into the package name and the rest. -/
theorem package_name_split (stem : List Char) (hlen : (stem ++ dotFilelist).length < PATH_MAX) :
    ∃ name rest, package_name (stem ++ dotFilelist) = Except.ok name ∧
      basename (stem ++ dotFilelist) = name ++ '.' :: rest ∧ '.' ∉ name := by
  have hb : basename (stem ++ dotFilelist) = lastComponent stem ++ dotFilelist := by
    have h1 : stem ++ dotFilelist ≠ [] := by simp [dotFilelist_eq]
    have h2 := stripTrailingSlashes_append stem dotFilelist (by decide) (by decide)
    simp only [basename, h1, if_false, h2]
    exact lastComponent_append_right stem dotFilelist (by decide)
  have hsplit : ∀ l : List Char, ∃ rest, l ++ dotFilelist =
      l.takeWhile (fun c => c != '.') ++ '.' :: rest := by
    intro l
    induction l with
    | nil => exact ⟨"filelist".toList, rfl⟩
    | cons x l ih =>
      obtain ⟨rest, hr⟩ := ih
      by_cases hx : x = '.'
      · subst hx
        exact ⟨l ++ dotFilelist, by simp [List.takeWhile_cons]⟩
      · refine ⟨rest, ?_⟩
        have hx' : (x != '.') = true := by simpa using hx
        rw [List.takeWhile_cons, hx']
        simp only [if_true, List.cons_append]
        rw [hr]
  obtain ⟨rest, hr⟩ := hsplit (lastComponent stem)
  refine ⟨_, rest, package_name_ok stem hlen, by rw [hb, hr], ?_⟩
  intro hmem
  have := List.mem_takeWhile_imp hmem
  simp at this

theorem first_dot_unique (n1 n2 r1 r2 : List Char) (h1 : '.' ∉ n1) (h2 : '.' ∉ n2)
    (h : n1 ++ '.' :: r1 = n2 ++ '.' :: r2) : n1 = n2 := by
  have e1 := takeWhile_of_not_mem '.' n1 r1 h1
  have e2 := takeWhile_of_not_mem '.' n2 r2 h2
  rw [h, e2] at e1
  exact e1.symm

theorem get_similarity_x_yz (sgn : Bool) :
    get_similarity sgn "x".toList "yz".toList = Score.finite (-1) := by
  rw [get_similarity_eq_lev sgn _ _ (by decide) (by decide) (by decide)]
  have h : lev "x".toList "yz".toList = 2 := by simp [lev]
  rw [h]
  norm_num

theorem wrapChar_le_signed (v : Int) : wrapChar true v ≤ 127 := by
  simp only [wrapChar, if_true]; omega

theorem wrapChar_le_unsigned (v : Int) : wrapChar false v ≤ 255 := by
  simp only [wrapChar]; simp; omega

theorem wrapChar_of_range_unsigned (v : Int) (h0 : 0 ≤ v) (h1 : v ≤ 255) :
    wrapChar false v = v := by
  simp only [wrapChar]; simp; omega

/-- No cell of the table exceeds the largest value of a `char`. -/
theorem memoCell_le_max (sgn : Bool) (str1 str2 : List Char) (i j : Nat) :
    memoCell sgn str1 str2 i j ≤ if sgn then 127 else 255 := by
  have hw : ∀ v, wrapChar sgn v ≤ if sgn then 127 else 255 := by
    intro v
    cases sgn
    · exact wrapChar_le_unsigned v
    · exact wrapChar_le_signed v
  generalize (if sgn = true then (127 : Int) else 255) = B at hw ⊢
  induction i generalizing j with
  | zero => exact hw _
  | succ i ih =>
    cases j with
    | zero => rw [memoCell_zero_right]; exact hw _
    | succ j =>
      rw [memoCell_succ]
      simp only [cellValue]
      split_ifs
      all_goals first | exact hw _ | exact ih j

/-- With unsigned `char`, within 255 rows and columns every cell lies between 0 and the
larger index. -/
theorem memoCell_range_unsigned (str1 str2 : List Char) (i j : Nat)
    (hi : i ≤ 255) (hj : j ≤ 255) :
    0 ≤ memoCell false str1 str2 i j ∧ memoCell false str1 str2 i j ≤ max i j := by
  induction i generalizing j with
  | zero =>
    rw [memoCell_zero_left, wrapChar_of_range_unsigned j (by omega) (by omega)]
    omega
  | succ i ih =>
    induction j with
    | zero =>
      rw [memoCell_zero_right, wrapChar_of_range_unsigned _ (by omega) (by omega)]
      omega
    | succ j ihj =>
      have hd := ih j (by omega) (by omega)
      have hu := ih (j + 1) (by omega) (by omega)
      have hl := ihj (by omega)
      rw [memoCell_succ]
      simp only [cellValue]
      split_ifs
      all_goals first
        | (rw [wrapChar_of_range_unsigned _ (by omega) (by omega)]; omega)
        | omega

/-- When the second string is shorter than the first, the cell read by `get_similarity`
does not exceed the length of the first string, whatever the lengths. -/
theorem memoCell_final_le (sgn : Bool) (c t : List Char) (h : t.length < c.length) :
    memoCell sgn c t c.length t.length ≤ c.length := by
  have hmax := memoCell_le_max sgn c t c.length t.length
  cases sgn
  · simp only [Bool.false_eq_true, if_false] at hmax
    by_cases hc : c.length ≤ 255
    · have := (memoCell_range_unsigned c t c.length t.length hc (by omega)).2
      have hm : max c.length t.length = c.length := max_eq_left (by omega)
      rw [hm] at this
      exact this
    · omega
  · simp only [if_true] at hmax
    by_cases hc : c.length ≤ 127
    · have := (memoCell_range true c t c.length t.length hc (by omega)).2
      have hm : max c.length t.length = c.length := max_eq_left (by omega)
      rw [hm] at this
      exact this
    · omega

/-- A candidate longer than the target never has a negative score. -/
theorem get_similarity_not_negative (sgn : Bool) (c t : List Char) (h : t.length < c.length) :
    ¬ (get_similarity sgn c t).negative := by
  have hlen : c.length ≠ 0 := by omega
  have hpos : (0 : ℚ) < (c.length : ℚ) := by
    have : 0 < c.length := Nat.pos_of_ne_zero hlen
    exact_mod_cast this
  rw [get_similarity_eq, floatDiv_pos _ _ hlen]
  simp only [Score.negative, not_lt]
  apply div_nonneg _ hpos.le
  have := memoCell_final_le sgn c t h
  have h2 : (0 : Int) ≤ (c.length : Int) - memoCell sgn c t c.length t.length := by omega
  exact_mod_cast h2

theorem cellStepZ_eq (str1 str2 : List Char) (i j : Nat) (memo : Table) :
    cellStepZ str1 str2 i j memo =
      memo.set (i + 1) (j + 1)
        (cellValueZ (memo i j) (memo (i + 1) j) (memo i (j + 1))
          (decide (charAt str1 i ≠ charAt str2 j))) := by
  have e1 : ∀ (m : Table) v, m.set (i + 1) (j + 1) v (i + 1) j = m (i + 1) j := fun m v =>
    Table.set_other m _ _ _ _ v (by omega)
  have e2 : ∀ (m : Table) v, m.set (i + 1) (j + 1) v i (j + 1) = m i (j + 1) := fun m v =>
    Table.set_other m _ _ _ _ v (by omega)
  by_cases hne : charAt str1 i = charAt str2 j
  · simp [cellStepZ, cellValueZ, hne]
  · simp only [cellStepZ, cellValueZ, hne, ne_eq, not_false_eq_true, if_true, decide_True,
      e1, e2, Table.set_same]
    by_cases h1 : memo (i + 1) j < memo i j
    · simp only [h1, if_true, e2, Table.set_same]
      by_cases h2 : memo i (j + 1) < memo (i + 1) j
      · simp only [h2, if_true, Table.set_same, Table.set_set]
      · simp only [h2, if_false, Table.set_same, Table.set_set]
    · simp only [h1, if_false, e2, Table.set_same]
      by_cases h2 : memo i (j + 1) < memo i j
      · simp only [h2, if_true, Table.set_same, Table.set_set]
      · simp only [h2, if_false, Table.set_same, Table.set_set]

theorem memoCellZ_zero_right (str1 str2 : List Char) (i : Nat) :
    memoCellZ str1 str2 i 0 = (i : Int) := by
  cases i with
  | zero => rfl
  | succ i => simp [memoCellZ, nextRowZ]

theorem memoCellZ_succ (str1 str2 : List Char) (i j : Nat) :
    memoCellZ str1 str2 (i + 1) (j + 1) =
      cellValueZ (memoCellZ str1 str2 i j) (memoCellZ str1 str2 (i + 1) j)
        (memoCellZ str1 str2 i (j + 1)) (decide (charAt str1 i ≠ charAt str2 j)) := rfl

theorem pred_cast (k : Nat) (hk : 1 ≤ k) : (((k - 1 : Nat) : Int) + 1) = (k : Int) := by
  omega

/-- The loops over unbounded integers leave in every cell the value given by the
recurrence `memoCellZ`. -/
theorem fillMemoZ_eq (str1 str2 : List Char) (i j : Nat)
    (hi : i ≤ str1.length) (hj : j ≤ str2.length) :
    fillMemoZ str1 str2 i j = memoCellZ str1 str2 i j := by
  let P : Nat → Table → Prop := fun k M =>
    (∀ i' j', i' ≤ k → j' ≤ str2.length → M i' j' = memoCellZ str1 str2 i' j') ∧
    (∀ i', i' ≤ str1.length → M i' 0 = (i' : Int))
  have key : P str1.length (fillMemoZ str1 str2) := by
    unfold fillMemoZ
    apply forLoop_inv P
    · constructor
      · intro i' j' hi' hj'
        have hi0 : i' = 0 := by omega
        subst hi0
        rw [init_loops (fun k => ((k : Int) + 1))]
        show _ = (j' : Int)
        by_cases hj0 : j' = 0
        · subst hj0; simp
        · have : ¬ (j' = 0 ∧ 1 ≤ 0 ∧ 0 ≤ str1.length) := by omega
          have h2 : (0 = 0 ∧ 1 ≤ j' ∧ j' ≤ str2.length) := by omega
          simp only [this, h2, if_false, if_true]
          exact pred_cast j' (by omega)
      · intro i' hi'
        rw [init_loops (fun k => ((k : Int) + 1))]
        by_cases hi0 : i' = 0
        · subst hi0; simp
        · have : (0 = 0 ∧ 1 ≤ i' ∧ i' ≤ str1.length) := by omega
          simp only [this, if_true]
          exact pred_cast i' (by omega)
    · intro k t hk ⟨hrows, hcol⟩
      let Q : Nat → Table → Prop := fun c M =>
        (∀ i' j', i' ≤ k → j' ≤ str2.length → M i' j' = memoCellZ str1 str2 i' j') ∧
        (∀ j', j' ≤ c → M (k + 1) j' = memoCellZ str1 str2 (k + 1) j') ∧
        (∀ i', i' ≤ str1.length → M i' 0 = (i' : Int))
      have hQ : Q str2.length
          (forLoop str2.length (fun j memo => cellStepZ str1 str2 k j memo) t) := by
        apply forLoop_inv Q
        · refine ⟨hrows, ?_, hcol⟩
          intro j' hj'
          have : j' = 0 := by omega
          subst this
          rw [hcol (k + 1) hk, memoCellZ_zero_right]
        · intro c M hc ⟨h1, h2, h3⟩
          rw [cellStepZ_eq]
          refine ⟨?_, ?_, ?_⟩
          · intro i' j' hi' hj'
            rw [Table.set_other _ _ _ _ _ _ (by omega)]
            exact h1 i' j' hi' hj'
          · intro j' hj'
            by_cases hjc : j' = c + 1
            · subst hjc
              rw [Table.set_same, memoCellZ_succ, h1 k c le_rfl (by omega), h2 c le_rfl,
                h1 k (c + 1) le_rfl (by omega)]
            · rw [Table.set_other _ _ _ _ _ _ (by omega)]
              exact h2 j' (by omega)
          · intro i' hi'
            rw [Table.set_other _ _ _ _ _ _ (by omega)]
            exact h3 i' hi'
      obtain ⟨h1, h2, h3⟩ := hQ
      refine ⟨?_, h3⟩
      intro i' j' hi' hj'
      by_cases hik : i' = k + 1
      · subst hik; exact h2 j' hj'
      · exact h1 i' j' (by omega) hj'
  exact key.1 i j hi hj

/-- Within 127 rows and columns the 8-bit recurrence and the unbounded one agree. -/
theorem memoCell_eq_memoCellZ (sgn : Bool) (str1 str2 : List Char) (i j : Nat)
    (hi : i ≤ 127) (hj : j ≤ 127) :
    memoCell sgn str1 str2 i j = memoCellZ str1 str2 i j := by
  induction i generalizing j with
  | zero =>
    rw [memoCell_zero_left, wrapChar_of_range sgn j (by omega) (by omega)]
    rfl
  | succ i ih =>
    induction j with
    | zero =>
      rw [memoCell_zero_right, memoCellZ_zero_right,
        wrapChar_of_range sgn _ (by omega) (by omega)]
    | succ j ihj =>
      have hd := memoCell_range sgn str1 str2 i j (by omega) (by omega)
      have hu := memoCell_range sgn str1 str2 i (j + 1) (by omega) (by omega)
      have hl := memoCell_range sgn str1 str2 (i + 1) j (by omega) (by omega)
      rw [memoCell_succ, memoCellZ_succ, ← ih j (by omega) (by omega),
        ← ih (j + 1) (by omega) (by omega), ← ihj (by omega)]
      simp only [cellValue, cellValueZ]
      split_ifs
      all_goals first
        | rfl
        | exact wrapChar_of_range sgn _ (by omega) (by omega)

/-- Distance zero means equal strings. -/
theorem eq_of_lev_eq_zero (a : List Char) : ∀ b : List Char, lev a b = 0 → a = b := by
  induction a with
  | nil =>
    intro b h
    rw [lev_nil_left] at h
    exact (List.length_eq_zero.mp h).symm
  | cons x a ih =>
    intro b h
    cases b with
    | nil => rw [lev_nil_right] at h; simp at h
    | cons y b =>
      rw [lev_cons_cons] at h
      have h3 : lev a b + (if x = y then 0 else 1) = 0 := by omega
      by_cases hxy : x = y
      · simp only [hxy, if_true, add_zero] at h3
        rw [hxy, ih b h3]
      · simp only [hxy, if_false] at h3
        omega

/-- For different strings of at most 127 bytes the score is at most `(|c| - 1) / |c|`. -/
theorem get_similarity_ne_le (sgn : Bool) (c t : List Char) (hne : c ≠ []) (hct : c ≠ t)
    (hc : c.length ≤ 127) (ht : t.length ≤ 127) :
    ∃ q, get_similarity sgn c t = Score.finite q ∧
      q ≤ ((c.length : ℚ) - 1) / (c.length : ℚ) := by
  have hlen : c.length ≠ 0 := by simpa using hne
  have hpos : (0 : ℚ) < (c.length : ℚ) := by
    have : 0 < c.length := Nat.pos_of_ne_zero hlen
    exact_mod_cast this
  have hl : 1 ≤ lev c t := by
    by_contra h
    exact hct (eq_of_lev_eq_zero c t (by omega))
  refine ⟨_, get_similarity_eq_lev sgn c t hne hc ht, ?_⟩
  apply div_le_div_of_nonneg_right _ hpos.le
  have : (1 : ℚ) ≤ (lev c t : ℚ) := by exact_mod_cast hl
  linarith

/-- A candidate of at most 3 bytes is no fuzzy match for a different target of at most
127 bytes. -/
theorem short_candidate_not_fuzzy (sgn : Bool) (c t : List Char) (hct : c ≠ t)
    (hc1 : 1 ≤ c.length) (hc3 : c.length ≤ 3) (ht : t.length ≤ 127) :
    ∃ q, get_similarity sgn c t = Score.finite q ∧
      q ≤ ((c.length : ℚ) - 1) / (c.length : ℚ) ∧
      ((c.length : ℚ) - 1) / (c.length : ℚ) ≤ 2 / 3 ∧
      (get_similarity sgn c t).exceeds = false := by
  have hne : c ≠ [] := by
    intro h; rw [h] at hc1; simp at hc1
  obtain ⟨q, hq, hle⟩ := get_similarity_ne_le sgn c t hne hct (by omega) ht
  have h23 : ((c.length : ℚ) - 1) / (c.length : ℚ) ≤ 2 / 3 := by
    have h : c.length = 1 ∨ c.length = 2 ∨ c.length = 3 := by omega
    rcases h with h | h | h <;> rw [h] <;> norm_num
  refine ⟨q, hq, hle, h23, ?_⟩
  rw [hq]
  simp only [Score.exceeds, decide_eq_false_iff_not, not_lt]
  linarith

/-- The score of a one-byte candidate against a run of the same byte: the cell read is
the first row cell `memo[0][n]`, stored modulo `2^8`. -/
theorem get_similarity_one_vs_run (sgn : Bool) (x : Char) (n : Nat) :
    get_similarity sgn [x] (List.replicate (n + 1) x) =
      Score.finite (((1 - wrapChar sgn n : Int) : ℚ)) := by
  have hcell : memoCell sgn [x] (List.replicate (n + 1) x) 1 (n + 1) = wrapChar sgn n := by
    have h2 : charAt (List.replicate (n + 1) x) n = x := charAt_replicate x (n + 1) n (by omega)
    have h1 : charAt [x] 0 = x := rfl
    rw [memoCell_succ, h1, h2]
    simp [cellValue, memoCell_zero_left]
  rw [get_similarity_eq, List.length_replicate, floatDiv_pos _ _ (by simp)]
  have : ([x] : List Char).length = 1 := rfl
  rw [this, hcell]
  simp

theorem compare_line_fuzzy_a (sgn : Bool) (t : List Char) (hne : "a".toList ≠ t)
    (hex : (get_similarity sgn "a".toList t).exceeds = true) :
    ∃ st', compare_line sgn t "pkg".toList "/usr/local/bin/a\n".toList State.initial =
        Except.ok st' ∧ st'.total_exact_matches = 0 ∧ st'.total_fuzzy_matches = 1 := by
  have hb : basename (("/usr/local/bin/a\n".toList).takeWhile (fun x => x != '\n')) =
      "a".toList := by decide
  obtain ⟨st', h1, ⟨h2, _, _⟩, h4, _⟩ :=
    (compare_line_cases sgn t "pkg".toList "/usr/local/bin/a\n".toList State.initial
      (Or.inl ⟨"/a\n".toList, by decide⟩) initial_WF (by decide) (by decide)).2.1
      (by rw [hb]; exact hne) (by rw [hb]; exact hex) (by decide)
  exact ⟨st', h1, h4, h2⟩

theorem run_ne_single (x : Char) (n : Nat) (hn : n ≠ 0) : [x] ≠ List.replicate (n + 1) x := by
  intro h
  have := congrArg List.length h
  rw [List.length_replicate] at this
  simp at this
  exact hn this

theorem print_matches_ok (entry : Nat → Option (List Char)) (name : Nat → List Char) (n : Nat)
    (h : ∀ i, i < n → entry i = some (name i)) :
    print_matches entry n = Except.ok ((List.range n).map (fun i => entry_line (name i))) := by
  induction n with
  | zero => rfl
  | succ n ih =>
    simp only [print_matches, ih (fun i hi => h i (by omega)), h n (by omega),
      List.range_succ, List.map_append, List.map_cons, List.map_nil]

theorem main_scan (sgn : Bool) (prog cmd path : List Char) (entries : List Entry) (st : State)
    (hscan : nftw sgn cmd entries State.initial = Except.ok st) :
    main sgn [prog, cmd, path] entries =
      match report cmd st with
      | Except.error f => Except.error f
      | Except.ok out => Except.ok (out, 0) := by
  simp only [main, hscan]

theorem compare_line_fooo (sgn : Bool) (p : List Char) (st : State) :
    compare_line sgn "foo".toList p "/usr/local/bin/fooo\n".toList st =
      record_fuzzy "fooo".toList p st := by
  rw [compare_line_eq_match sgn _ p _ st (Or.inl ⟨"/fooo\n".toList, by decide⟩)]
  have hb : basename ("/usr/local/bin/fooo\n".toList.takeWhile (fun x => x != '\n')) =
      "fooo".toList := by decide
  have hex : (get_similarity sgn "fooo".toList "foo".toList).exceeds = true := by
    rw [get_similarity_fooo]; exact exceeds_finite _ (by norm_num)
  simp only [match_line, hb, hex, if_true]
  rw [if_neg (by decide)]

/-- Reading `n` lines `/usr/local/bin/fooo` for the target `foo`: each is stored while
fewer than 10 fuzzy matches are held, and the line after the tenth is stored outside
the array. -/
theorem read_lines_fooo (sgn : Bool) (p : List Char) (hnp : NUL ∉ p) (n : Nat) :
    ∀ st : State, st.WF → st.total_fuzzy_matches ≤ 10 →
      (st.total_fuzzy_matches + n ≤ 10 →
        ∃ st', read_lines sgn "foo".toList p
            (List.replicate n "/usr/local/bin/fooo\n".toList) st = Except.ok st' ∧
          st'.total_fuzzy_matches = st.total_fuzzy_matches + n ∧
          st'.total_exact_matches = st.total_exact_matches) ∧
      (10 < st.total_fuzzy_matches + n →
        read_lines sgn "foo".toList p
            (List.replicate n "/usr/local/bin/fooo\n".toList) st =
          Except.error Fault.undefined) := by
  have hc : cstr "/usr/local/bin/fooo\n".toList = "/usr/local/bin/fooo\n".toList := by decide
  induction n with
  | zero =>
    intro st _ h10
    exact ⟨fun _ => ⟨st, rfl, rfl, rfl⟩, fun h => absurd h (by omega)⟩
  | succ n ih =>
    intro st hwf h10
    rw [List.replicate_succ]
    simp only [read_lines, hc, compare_line_fooo]
    by_cases hF : st.total_fuzzy_matches < 10
    · obtain ⟨st1, h1, ⟨h2, _, _⟩, ⟨h3, _⟩, h4, _⟩ := record_fuzzy_ok "fooo".toList p st hwf hF
        (not_mem_fuzzy_text _ p (by decide) hnp)
      rw [h1]
      obtain ⟨ha, hb⟩ := ih st1 h4 (by omega)
      refine ⟨fun h => ?_, fun h => ?_⟩
      · obtain ⟨st', e1, e2, e3⟩ := ha (by omega)
        exact ⟨st', e1, by omega, by omega⟩
      · exact hb (by omega)
    · refine ⟨fun h => absurd h (by omega), fun _ => ?_⟩
      simp only [record_fuzzy, if_neg hF]

theorem scan_repeat_fooo (sgn : Bool) (n : Nat)
    (hb : fgets_buffers (PATH_MAX - 1)
      (List.replicate n "/usr/local/bin/fooo\n".toList).flatten [] =
        List.replicate n "/usr/local/bin/fooo\n".toList) :
    (n ≤ 10 → ∃ st, scan sgn "foo".toList [repeatManifest "/usr/local/bin/fooo\n".toList n] =
        Except.ok st ∧ st.total_fuzzy_matches = n ∧ st.total_exact_matches = 0) ∧
    (10 < n → scan sgn "foo".toList [repeatManifest "/usr/local/bin/fooo\n".toList n] =
        Except.error Fault.undefined) := by
  have hpkg : package_name "/tree/pkg.filelist".toList = Except.ok "pkg".toList :=
    (package_name_ok "/tree/pkg".toList (by decide)).trans (congrArg Except.ok (by decide))
  have hst : ({ State.initial with opened := State.initial.opened ++
      ["/tree/pkg.filelist".toList] } : State).WF := initial_WF
  obtain ⟨ha, hb'⟩ := read_lines_fooo sgn "pkg".toList (by decide) n _ hst
    (show (0 : Nat) ≤ 10 by decide)
  have hcn : compare_name sgn "foo".toList (repeatManifest "/usr/local/bin/fooo\n".toList n)
      State.initial =
      match read_lines sgn "foo".toList "pkg".toList
        (List.replicate n "/usr/local/bin/fooo\n".toList)
        { State.initial with opened := State.initial.opened ++
          ["/tree/pkg.filelist".toList] } with
      | Except.error f => Except.error f
      | Except.ok st' => Except.ok (0, st') := by
    unfold compare_name
    simp only [repeatManifest, hpkg, hb]
    rw [if_neg (by decide), if_neg (by decide)]
  refine ⟨fun h => ?_, fun h => ?_⟩
  · obtain ⟨st', e1, e2, e3⟩ := ha (show 0 + n ≤ 10 by omega)
    refine ⟨st', ?_, (show st'.total_fuzzy_matches = 0 + n from e2).trans (Nat.zero_add n), e3⟩
    simp only [scan, nftw, hcn, e1, if_true]
  · have e := hb' (show 10 < 0 + n by omega)
    simp only [scan, nftw, hcn, e]

theorem compare_name_ret (sgn : Bool) (t : List Char) (e : Entry) (st st' : State) (r : Int)
    (h : compare_name sgn t e st = Except.ok (r, st')) : r = 0 := by
  have hfile : ∀ x : Except Fault (Int × State),
      x = (if e.path.length < 9 then Except.error Fault.undefined
        else if e.path.drop (e.path.length - 9) ≠ dotFilelist then Except.ok ((0 : Int), st)
        else
          match e.file with
          | none => Except.error (Fault.exit e.errno)
          | some bytes =>
            match package_name e.path with
            | Except.error f => Except.error f
            | Except.ok pkgName =>
              match read_lines sgn t pkgName (fgets_buffers (PATH_MAX - 1) bytes [])
                { st with opened := st.opened ++ [e.path] } with
              | Except.error f => Except.error f
              | Except.ok st' => Except.ok ((0 : Int), st')) →
      x = Except.ok (r, st') → r = 0 := by
    intro x hx h
    rw [hx] at h
    by_cases h9 : e.path.length < 9
    · rw [if_pos h9] at h; exact absurd h (by simp)
    · rw [if_neg h9] at h
      by_cases hd : e.path.drop (e.path.length - 9) ≠ dotFilelist
      · rw [if_pos hd] at h; exact (Prod.mk.inj (Except.ok.inj h)).1.symm
      · rw [if_neg hd] at h
        cases hf : e.file with
        | none => rw [hf] at h; exact absurd h (by simp)
        | some bytes =>
          rw [hf] at h
          dsimp only at h
          cases hp : package_name e.path with
          | error f => rw [hp] at h; exact absurd h (by simp)
          | ok pkg =>
            rw [hp] at h
            dsimp only at h
            cases hr : read_lines sgn t pkg (fgets_buffers (PATH_MAX - 1) bytes [])
                { st with opened := st.opened ++ [e.path] } with
            | error f => rw [hr] at h; exact absurd h (by simp)
            | ok st2 => rw [hr] at h; exact (Prod.mk.inj (Except.ok.inj h)).1.symm
  unfold compare_name at h
  cases hf : e.flag <;> rw [hf] at h
  · exact hfile _ rfl h
  · exact (Prod.mk.inj (Except.ok.inj h)).1.symm
  · exact (Prod.mk.inj (Except.ok.inj h)).1.symm
  · exact absurd h (by simp)
  · exact hfile _ rfl h
  · exact (Prod.mk.inj (Except.ok.inj h)).1.symm
  · exact hfile _ rfl h

/-- The walk of a list of entries continues after a part of it that returns. -/
theorem nftw_append (sgn : Bool) (t : List Char) (pre rest : List Entry) :
    ∀ st st1 : State, nftw sgn t pre st = Except.ok st1 →
      nftw sgn t (pre ++ rest) st = nftw sgn t rest st1 := by
  induction pre with
  | nil =>
    intro st st1 h
    simp only [nftw, Except.ok.injEq] at h
    rw [List.nil_append, h]
  | cons x pre ih =>
    intro st st1 h
    simp only [List.cons_append, nftw] at h ⊢
    cases hc : compare_name sgn t x st with
    | error f => rw [hc] at h; exact absurd h (by simp)
    | ok p =>
      obtain ⟨r, st'⟩ := p
      have hr := compare_name_ret sgn t x st st' r hc
      subst hr
      rw [hc] at h
      simp only [if_true] at h ⊢
      exact ih st' st1 h

theorem compare_name_fopen_null (sgn : Bool) (t stem : List Char) (e : Entry) (st : State)
    (hflag : e.flag.isFile = true) (hpath : e.path = stem ++ dotFilelist)
    (hfile : e.file = none) :
    compare_name sgn t e st = Except.error (Fault.exit e.errno) := by
  have h9 : ¬ e.path.length < 9 := by
    rw [hpath, List.length_append, show dotFilelist.length = 9 from rfl]; omega
  have hd : e.path.drop (e.path.length - 9) = dotFilelist := by
    rw [hpath]; exact drop_suffix stem dotFilelist
  unfold compare_name
  cases hf : e.flag with
  | FTW_NS => rfl
  | FTW_D => rw [hf] at hflag; exact absurd hflag (by decide)
  | FTW_DNR => rw [hf] at hflag; exact absurd hflag (by decide)
  | FTW_DP => rw [hf] at hflag; exact absurd hflag (by decide)
  | FTW_F => simp only [if_neg h9, hd, ne_eq, not_true_eq_false, if_false, hfile]
  | FTW_SL => simp only [if_neg h9, hd, ne_eq, not_true_eq_false, if_false, hfile]
  | FTW_SLN => simp only [if_neg h9, hd, ne_eq, not_true_eq_false, if_false, hfile]

/-- The scan of the tree `/tree` with the manifest `foo.filelist` for `foo`. -/
theorem nftw_tree_foo :
    ∃ st, nftw true "foo".toList [treeRoot, fooManifest] State.initial = Except.ok st ∧
      st.total_exact_matches = 1 ∧ st.exact_entry 0 = some "foo".toList := by
  have h : (nftw true "foo".toList [treeRoot, fooManifest] State.initial).toOption.map
      (fun st => (st.total_exact_matches, st.exact_entry 0)) = some (1, some "foo".toList) := by
    decide
  cases hs : nftw true "foo".toList [treeRoot, fooManifest] State.initial with
  | error f => rw [hs] at h; exact absurd h (by simp [Except.toOption])
  | ok st =>
    rw [hs] at h
    simp only [Except.toOption, Option.map_some', Option.some.injEq, Prod.mk.injEq] at h
    exact ⟨st, rfl, h.1, h.2⟩

/-- The exact-match step stores the 30 bytes `strncpy` writes, whatever the length of
the package name. -/
theorem record_exact_slot (p : List Char) (st : State) (hwf : st.WF)
    (hE : st.total_exact_matches < 5) :
    ∃ st', record_exact p st = Except.ok st' ∧
      (st'.exact_matches.drop (30 * st.total_exact_matches)).take 30 = strncpy p 30 ∧
      (p.length < 30 → NUL ∉ p → st'.exact_entry st.total_exact_matches = some p) := by
  refine ⟨{ st with
      exact_matches := store st.exact_matches (30 * st.total_exact_matches) (strncpy p 30)
      total_exact_matches := st.total_exact_matches + 1 },
    by simp only [record_exact, if_pos hE], ?_, ?_⟩
  · show ((store st.exact_matches (30 * st.total_exact_matches) (strncpy p 30)).drop
      (30 * st.total_exact_matches)).take 30 = strncpy p 30
    rw [store_drop _ _ _ (by rw [hwf.2]; omega)]
    have hl := strncpy_length p 30
    rw [List.take_append_of_le_length (by omega), List.take_of_length_le (by omega)]
  · intro hp hnul
    simp only [State.exact_entry]
    rw [strncpy_short p 30 hp]
    exact cstrAt_store _ _ _ _ (by rw [hwf.2]; omega) hnul

theorem fuzzy_text_length (c p : List Char) :
    (fuzzy_text c p).length = 24 + c.length + p.length := by
  simp only [fuzzy_text, List.length_append]
  have h1 : "Command '".toList.length = 9 := rfl
  have h2 : "' from package ".toList.length = 15 := rfl
  omega

/-- A line that names a command of 90 bytes is a fuzzy match for the command of 89
bytes, and the record holds the command name and no byte of the package name. -/
theorem fuzzy_record_without_package (sgn : Bool) (a : List Char) (ha : a.length = 89)
    (h1 : '/' ∉ a) (h2 : '\n' ∉ a) (h3 : NUL ∉ a) (x : Char)
    (hx1 : x ≠ '/') (hx2 : x ≠ '\n') (hx3 : x ≠ NUL) (p : List Char) (hp : NUL ∉ p) :
    ∃ st', compare_line sgn a p ("/usr/local/bin/".toList ++ (a ++ [x]) ++ ['\n'])
        State.initial = Except.ok st' ∧
      st'.fuzzy_entry 0 = some ("Command '".toList ++ (a ++ [x])) := by
  have hc2 : '\n' ∉ a ++ [x] := by
    simp only [List.mem_append, List.mem_singleton, not_or]; exact ⟨h2, fun h => hx2 h.symm⟩
  have hc1 : '/' ∉ a ++ [x] := by
    simp only [List.mem_append, List.mem_singleton, not_or]; exact ⟨h1, fun h => hx1 h.symm⟩
  have hc3 : NUL ∉ a ++ [x] := by
    simp only [List.mem_append, List.mem_singleton, not_or]; exact ⟨h3, fun h => hx3 h.symm⟩
  have hcut : ("/usr/local/bin/".toList ++ (a ++ [x]) ++ ['\n']).takeWhile (fun y => y != '\n') =
      "/usr/local/bin/".toList ++ (a ++ [x]) :=
    takeWhile_of_not_mem '\n' _ [] (binSlash_not_newline _ hc2)
  have hb : basename (("/usr/local/bin/".toList ++ (a ++ [x]) ++ ['\n']).takeWhile
      (fun y => y != '\n')) = a ++ [x] := by
    rw [hcut]
    exact basename_append_component "/usr/local/bin".toList (a ++ [x]) (by simp) hc1
  have hpre : "/usr/local/bin".toList <+: "/usr/local/bin/".toList ++ (a ++ [x]) ++ ['\n'] ∨
      "/usr/local/sbin".toList <+: "/usr/local/bin/".toList ++ (a ++ [x]) ++ ['\n'] :=
    Or.inl ⟨'/' :: (a ++ [x]) ++ ['\n'], by simp⟩
  have hnb : NUL ∉ "/usr/local/bin/".toList ++ (a ++ [x]) ++ ['\n'] := by
    intro h
    rcases List.mem_append.mp h with h | h
    · exact binSlash_not_nul _ hc3 h
    · exact absurd (List.mem_singleton.mp h) (by decide)
  have hne : a ++ [x] ≠ a := by
    intro h
    have := congrArg List.length h
    simp at this
  have hsim : (get_similarity sgn (a ++ [x]) a).exceeds = true := by
    rw [get_similarity_append_left sgn a x (Or.inr (by omega)), ha]
    exact exceeds_finite _ (by norm_num)
  obtain ⟨st', e1, ⟨_, e3, _⟩, _⟩ :=
    (compare_line_cases sgn a p _ State.initial hpre initial_WF hnb hp).2.1
      (by rw [hb]; exact hne) (by rw [hb]; exact hsim) (by decide)
  refine ⟨st', e1, ?_⟩
  rw [hb] at e3
  rw [show State.initial.total_fuzzy_matches = 0 from rfl] at e3
  rw [e3]
  congr 1
  have hl : ("Command '".toList ++ (a ++ [x])).length = 99 := by
    rw [List.length_append, List.length_append, ha]; rfl
  simp only [fuzzy_text, List.append_assoc]
  rw [← List.append_assoc "Command '".toList, ← List.append_assoc ("Command '".toList ++ a)]
  rw [List.take_append_of_le_length (by rw [List.append_assoc, hl])]
  rw [List.take_of_length_le (by rw [List.append_assoc, hl])]
  rw [List.append_assoc]

/-! ## Section 8: the claims, continued -/

/-- C11: for a path that ends in `.filelist` and is shorter than `PATH_MAX` (every path
`nftw` passes on and `fopen` accepts is), the package name `compare_name` derives is
defined, and it is the base name cut at its first `'.'`: the base name holds a `'.'`,
it is the package name followed by a `'.'` and a rest, the package name is free of
`'.'`, and no prefix of the base name that is free of `'.'` is longer.  When the base
name is `p ++ ".filelist"` with `p` free of `'.'`, the package name is `p`. -/
theorem package_name_first_dot (stem : List Char)
    (hlen : (stem ++ dotFilelist).length < PATH_MAX) :
    '.' ∈ basename (stem ++ dotFilelist) ∧
    (∃ name rest, package_name (stem ++ dotFilelist) = Except.ok name ∧
      basename (stem ++ dotFilelist) = name ++ '.' :: rest ∧ '.' ∉ name ∧
      ∀ q, q <+: basename (stem ++ dotFilelist) → '.' ∉ q → q.length ≤ name.length) ∧
    (∀ p, '.' ∉ p → basename (stem ++ dotFilelist) = p ++ dotFilelist →
      package_name (stem ++ dotFilelist) = Except.ok p) := by
  obtain ⟨name, rest, h1, h2, h3⟩ := package_name_split stem hlen
  refine ⟨by rw [h2]; simp, ⟨name, rest, h1, h2, h3, ?_⟩, ?_⟩
  · intro q hq hdot
    by_contra hlt
    have hpre : name ++ ['.'] <+: basename (stem ++ dotFilelist) :=
      ⟨rest, by rw [h2]; simp⟩
    have hle : (name ++ ['.']).length ≤ q.length := by
      rw [List.length_append, List.length_singleton]; omega
    have hsub := List.prefix_of_prefix_length_le hpre hq hle
    exact hdot (hsub.subset (by simp))
  · intro p hp hbase
    rw [h1]
    congr 1
    have e : name ++ '.' :: rest = p ++ '.' :: "filelist".toList := by
      rw [← h2, hbase]; rfl
    exact first_dot_unique name p rest _ h3 hp e

/-- Witness for C11: the manifest `/tree/foo.bar.filelist` gives the package name
`foo`. -/
theorem package_name_first_dot_witness :
    ("/tree/foo.bar".toList ++ dotFilelist).length < PATH_MAX ∧
    basename ("/tree/foo.bar".toList ++ dotFilelist) = "foo.bar.filelist".toList ∧
    package_name ("/tree/foo.bar".toList ++ dotFilelist) = Except.ok "foo".toList := by
  refine ⟨by decide, by decide, ?_⟩
  obtain ⟨_, ⟨name, rest, h1, h2, h3, _⟩, _⟩ :=
    package_name_first_dot "/tree/foo.bar".toList (by decide)
  rw [h1]
  congr 1
  have hb : basename ("/tree/foo.bar".toList ++ dotFilelist) =
      "foo".toList ++ '.' :: "bar.filelist".toList := by decide
  rw [hb] at h2
  exact first_dot_unique name "foo".toList rest _ h3 (by decide) h2.symm

/-- C13 (as amended): the score can be negative for a short candidate against a longer
target: for the candidate `x` and the target `yz` it is `(1 - 2) / 1 = -1`, with signed
and with unsigned `char`. -/
theorem get_similarity_negative_longer_target :
    ∃ c t : List Char, c.length < t.length ∧
      ∀ sgn, get_similarity sgn c t = Score.finite (-1) ∧ (get_similarity sgn c t).negative := by
  refine ⟨"x".toList, "yz".toList, by decide, fun sgn => ⟨get_similarity_x_yz sgn, ?_⟩⟩
  rw [get_similarity_x_yz]; simp [Score.negative]

/-- Counterexample to C13 as stated: no candidate `c` and target `t` with `|t| < |c|`
have a negative score, whatever the lengths and the signedness of `char`. -/
theorem get_similarity_shorter_target_not_negative :
    ¬ ∃ (sgn : Bool) (c t : List Char),
      t.length < c.length ∧ (get_similarity sgn c t).negative := by
  rintro ⟨sgn, c, t, h, hneg⟩
  exact get_similarity_not_negative sgn c t h hneg

/-- C14: the failing input.  The five lines `/usr/local/bin/foo` of one manifest, scanned
for `foo`, give five exact matches, all for the package `pkg` (repeats are kept); with
six lines the sixth `strncpy` writes `exact_matches[5]`, outside the array of five
entries.  Ten lines `/usr/local/bin/fooo` give ten fuzzy matches; with eleven lines the
eleventh `snprintf` writes `fuzzy_matches[10]`, outside the array of ten entries.  The
run is then undefined: no sequence of six exact or eleven fuzzy entries exists. -/
theorem scan_beyond_capacity (sgn : Bool) :
    (∃ st, scan sgn "foo".toList [repeatManifest "/usr/local/bin/foo\n".toList 5] =
        Except.ok st ∧ st.total_exact_matches = 5 ∧
        (List.range 5).map st.exact_entry = List.replicate 5 (some "pkg".toList)) ∧
    scan sgn "foo".toList [repeatManifest "/usr/local/bin/foo\n".toList 6] =
      Except.error Fault.undefined ∧
    (∃ st, scan sgn "foo".toList [repeatManifest "/usr/local/bin/fooo\n".toList 10] =
        Except.ok st ∧ st.total_fuzzy_matches = 10 ∧ st.total_exact_matches = 0) ∧
    scan sgn "foo".toList [repeatManifest "/usr/local/bin/fooo\n".toList 11] =
      Except.error Fault.undefined := by
  refine ⟨?_, ?_, ?_, ?_⟩
  · have h : (scan sgn "foo".toList [repeatManifest "/usr/local/bin/foo\n".toList 5]).toOption.map
        (fun st => (st.total_exact_matches, (List.range 5).map st.exact_entry)) =
        some (5, List.replicate 5 (some "pkg".toList)) := by
      cases sgn <;> decide
    cases hs : scan sgn "foo".toList [repeatManifest "/usr/local/bin/foo\n".toList 5] with
    | error f => rw [hs] at h; exact absurd h (by simp [Except.toOption])
    | ok st =>
      rw [hs] at h
      simp only [Except.toOption, Option.map_some', Option.some.injEq, Prod.mk.injEq] at h
      exact ⟨st, rfl, h.1, h.2⟩
  · cases sgn <;> decide
  · exact (scan_repeat_fooo sgn 10 (by decide)).1 (by decide)
  · exact (scan_repeat_fooo sgn 11 (by decide)).2 (by decide)

/-- The report of `main` after a scan that returns, when the stored entries below the
counts are terminated strings: `main` prints the report chosen by the two counts alone
and returns 0: with at least one exact match the two header lines, one line per exact
match in the order stored and the hint (and no fuzzy match, whatever their number);
else with at least one fuzzy match the header, one line per fuzzy match in the order
stored and the hint; else the single line `<command>: command not found`. -/
theorem main_report (sgn : Bool) (prog cmd path : List Char) (entries : List Entry)
    (st : State) (hscan : nftw sgn cmd entries State.initial = Except.ok st) :
    (0 < st.total_exact_matches →
      ∀ name : Nat → List Char,
        (∀ i, i < st.total_exact_matches → st.exact_entry i = some (name i)) →
        main sgn [prog, cmd, path] entries = Except.ok
          (["The command '".toList ++ cmd ++ "' is not currently installed\n\n".toList,
            "However, the following Chromebrew package(s) provide it:\n\n".toList] ++
            (List.range st.total_exact_matches).map (fun i => entry_line (name i)) ++
            ["\nInstall one of them with 'crew install <package>'\n".toList], 0)) ∧
    (st.total_exact_matches = 0 → 0 < st.total_fuzzy_matches →
      ∀ text : Nat → List Char,
        (∀ i, i < st.total_fuzzy_matches → st.fuzzy_entry i = some (text i)) →
        main sgn [prog, cmd, path] entries = Except.ok
          (["No command '".toList ++ cmd ++ "' found. Did you mean:\n\n".toList] ++
            (List.range st.total_fuzzy_matches).map (fun i => entry_line (text i)) ++
            ["\nInstall one of them with 'crew install <package>'\n".toList], 0)) ∧
    (st.total_exact_matches = 0 → st.total_fuzzy_matches = 0 →
      main sgn [prog, cmd, path] entries =
        Except.ok ([cmd ++ ": command not found\n".toList], 0)) := by
  rw [main_scan sgn prog cmd path entries st hscan]
  refine ⟨?_, ?_, ?_⟩
  · intro h name hname
    simp only [report, h, if_true, print_matches_ok _ name _ hname]
  · intro h0 h name hname
    simp only [report, h0, lt_irrefl, if_false, h, if_true, print_matches_ok _ name _ hname]
  · intro h0 h1
    simp only [report, h0, h1, lt_irrefl, if_false]

/-- An instance of `main_report`: the tree `/tree` with the manifest `foo.filelist`,
searched for `foo`, gives the report of the exact match. -/
theorem main_report_witness :
    main true ["cmd".toList, "foo".toList, "/tree".toList] [treeRoot, fooManifest] =
      Except.ok (["The command 'foo' is not currently installed\n\n".toList,
        "However, the following Chromebrew package(s) provide it:\n\n".toList,
        "  foo\n".toList,
        "\nInstall one of them with 'crew install <package>'\n".toList], 0) := by
  obtain ⟨st, hs, h1, h2⟩ := nftw_tree_foo
  have h := (main_report true "cmd".toList "foo".toList "/tree".toList
    [treeRoot, fooManifest] st hs).1 (by omega) (fun _ => "foo".toList)
    (by intro i hi; rw [h1] at hi; rw [show i = 0 by omega]; exact h2)
  rw [h, h1]
  rfl

/-- C15: the failing input.  The manifest `texlive-collection-fontsrecommended.filelist`
with five lines `/usr/local/bin/foo`, searched for `foo`, gives five exact matches and
no fuzzy match, and the scan returns; `strncpy(..., 30)` stores the first 30 bytes of
the 35-byte package name in each entry without a terminator, so the fifth entry
`exact_matches[4]` has no terminator inside the array: `main` reads past the array when
it prints it, the run is undefined, and no report of five lines with the value 0
results.  With the package name `pkg` the same five lines give the report of five
lines and the value 0. -/
theorem main_report_unterminated (sgn : Bool) :
    (∃ st, scan sgn "foo".toList [longNameManifest] = Except.ok st ∧
      st.total_exact_matches = 5 ∧ st.total_fuzzy_matches = 0 ∧
      st.exact_entry 4 = none) ∧
    main sgn ["cmd".toList, "foo".toList, "/tree".toList] [longNameManifest] =
      Except.error Fault.undefined ∧
    main sgn ["cmd".toList, "foo".toList, "/tree".toList]
        [repeatManifest "/usr/local/bin/foo\n".toList 5] =
      Except.ok (["The command 'foo' is not currently installed\n\n".toList,
        "However, the following Chromebrew package(s) provide it:\n\n".toList,
        "  pkg\n".toList, "  pkg\n".toList, "  pkg\n".toList, "  pkg\n".toList,
        "  pkg\n".toList,
        "\nInstall one of them with 'crew install <package>'\n".toList], 0) := by
  refine ⟨?_, ?_, ?_⟩
  · have h : (scan sgn "foo".toList [longNameManifest]).toOption.map
        (fun st => (st.total_exact_matches, st.total_fuzzy_matches, st.exact_entry 4)) =
        some (5, 0, none) := by
      cases sgn <;> decide
    cases hs : scan sgn "foo".toList [longNameManifest] with
    | error f => rw [hs] at h; exact absurd h (by simp [Except.toOption])
    | ok st =>
      rw [hs] at h
      simp only [Except.toOption, Option.map_some', Option.some.injEq, Prod.mk.injEq] at h
      exact ⟨st, rfl, h.1, h.2.1, h.2.2⟩
  · cases sgn <;> decide
  · cases sgn <;> decide

/-- C16: when `fopen` fails on a file or symbolic link whose path ends in `.filelist`
(so that `errno` is not zero), `compare_name` ends the process with `exit(errno)`: the
walk ends with that status whatever entries would follow, and `main` prints no report,
whatever matches the entries before had given. -/
theorem compare_name_unopenable (sgn : Bool) (prog t root stem : List Char)
    (pre post : List Entry) (e : Entry) (st1 : State)
    (hpre : nftw sgn t pre State.initial = Except.ok st1)
    (hflag : e.flag.isFile = true) (hpath : e.path = stem ++ dotFilelist)
    (hfile : e.file = none) (herr : e.errno ≠ 0) :
    ∃ status, status ≠ 0 ∧
      compare_name sgn t e st1 = Except.error (Fault.exit status) ∧
      nftw sgn t (pre ++ e :: post) State.initial = Except.error (Fault.exit status) ∧
      main sgn [prog, t, root] (pre ++ e :: post) = Except.error (Fault.exit status) := by
  have hc := compare_name_fopen_null sgn t stem e st1 hflag hpath hfile
  have hn : nftw sgn t (pre ++ e :: post) State.initial = Except.error (Fault.exit e.errno) := by
    rw [nftw_append sgn t pre (e :: post) State.initial st1 hpre]
    simp only [nftw, hc]
  refine ⟨e.errno, herr, hc, hn, ?_⟩
  simp only [main, hn]

/-- Witness for C16: the walk `/tree`, `foo.filelist`, an unreadable `bar.filelist`, and
a further manifest, searched for `foo`: the exact match found first is not reported. -/
theorem compare_name_unopenable_witness :
    ∃ status, status ≠ 0 ∧
      main true ["cmd".toList, "foo".toList, "/tree".toList]
        ([treeRoot, fooManifest] ++ barUnreadable :: [fooManifest]) =
          Except.error (Fault.exit status) := by
  obtain ⟨st, hs, _, _⟩ := nftw_tree_foo
  obtain ⟨status, h0, _, _, h⟩ := compare_name_unopenable true "cmd".toList "foo".toList
    "/tree".toList "/tree/bar".toList [treeRoot, fooManifest] [fooManifest] barUnreadable st
    hs (by decide) (by decide) (by decide) (by decide)
  exact ⟨status, h0, h⟩

/-- C17 (as amended): for a line that begins with a search path, with candidate `c` and
package name `p`: when the line is an exact match and fewer than 5 exact matches are
stored, the 30 bytes of the next entry of `exact_matches` are the first 30 bytes of `p`,
padded with NUL when `p` is shorter, and the entry is the terminated string `p` when
`p` is shorter than 30 bytes; when the line is a fuzzy match and fewer than 10 fuzzy
matches are stored, the next entry of `fuzzy_matches` is the terminated string of the
first 99 bytes of `Command 'c' from package p`, which is the whole text, with the whole
of `c` and `p`, when `24 + |c| + |p| ≤ 99`. -/
theorem compare_line_stores (sgn : Bool) (t p buf : List Char) (st : State)
    (hbuf : "/usr/local/bin".toList <+: buf ∨ "/usr/local/sbin".toList <+: buf)
    (hwf : st.WF) (hnb : NUL ∉ buf) (hnp : NUL ∉ p) :
    (basename (buf.takeWhile (fun x => x != '\n')) = t → st.total_exact_matches < 5 →
      ∃ st', compare_line sgn t p buf st = Except.ok st' ∧
        (st'.exact_matches.drop (30 * st.total_exact_matches)).take 30 = strncpy p 30 ∧
        (p.length < 30 → st'.exact_entry st.total_exact_matches = some p)) ∧
    (basename (buf.takeWhile (fun x => x != '\n')) ≠ t →
      (get_similarity sgn (basename (buf.takeWhile (fun x => x != '\n'))) t).exceeds = true →
      st.total_fuzzy_matches < 10 →
      ∃ st', compare_line sgn t p buf st = Except.ok st' ∧
        st'.fuzzy_entry st.total_fuzzy_matches =
          some ((fuzzy_text (basename (buf.takeWhile (fun x => x != '\n'))) p).take 99) ∧
        (24 + (basename (buf.takeWhile (fun x => x != '\n'))).length + p.length ≤ 99 →
          st'.fuzzy_entry st.total_fuzzy_matches =
            some ("Command '".toList ++ basename (buf.takeWhile (fun x => x != '\n')) ++
              "' from package ".toList ++ p))) := by
  refine ⟨?_, ?_⟩
  · intro hc hE
    obtain ⟨st', h1, h2, h3⟩ := record_exact_slot p st hwf hE
    refine ⟨st', ?_, h2, fun hp => h3 hp hnp⟩
    rw [compare_line_eq_match sgn t p buf st hbuf]
    simp only [match_line, hc, if_true, h1]
  · intro hc hex hF
    obtain ⟨st', h1, ⟨_, h3, _⟩, _⟩ :=
      (compare_line_cases sgn t p buf st hbuf hwf hnb hnp).2.1 hc hex hF
    refine ⟨st', h1, h3, fun hlen => ?_⟩
    rw [h3, List.take_of_length_le (by rw [fuzzy_text_length]; omega)]
    rfl

/-- Witness for C17 as amended: the line `/usr/local/bin/foo` searched for `foo` stores
the package name `pkg`, and the line `/usr/local/bin/chromex` searched for `chrome`
stores the whole text. -/
theorem compare_line_stores_witness :
    (∃ st', compare_line true "foo".toList "pkg".toList "/usr/local/bin/foo\n".toList
        State.initial = Except.ok st' ∧ st'.exact_entry 0 = some "pkg".toList) ∧
    (∃ st', compare_line true "chrome".toList "pkg".toList "/usr/local/bin/chromex\n".toList
        State.initial = Except.ok st' ∧
      st'.fuzzy_entry 0 = some "Command 'chromex' from package pkg".toList) := by
  constructor
  · obtain ⟨st', h1, _, h3⟩ := (compare_line_stores true "foo".toList "pkg".toList
      "/usr/local/bin/foo\n".toList State.initial (Or.inl ⟨"/foo\n".toList, by decide⟩)
      initial_WF (by decide) (by decide)).1 (by decide) (by decide)
    exact ⟨st', h1, h3 (by decide)⟩
  · have hb : basename ("/usr/local/bin/chromex\n".toList.takeWhile (fun x => x != '\n')) =
        "chromex".toList := by decide
    obtain ⟨st', h1, _, h3⟩ := (compare_line_stores true "chrome".toList "pkg".toList
      "/usr/local/bin/chromex\n".toList State.initial
      (Or.inl ⟨"/chromex\n".toList, by decide⟩)
      initial_WF (by decide) (by decide)).2 (by rw [hb]; decide)
      (by rw [hb, get_similarity_chromex]; exact exceeds_finite _ (by norm_num)) (by decide)
    refine ⟨st', h1, ?_⟩
    have h4 := h3 (by rw [hb]; decide)
    rw [hb] at h4
    exact h4

/-- Counterexample to C17 as stated: for the package name
`texlive-collection-fontsrecommended` (35 bytes) the exact match stored for the line
`/usr/local/bin/foo` reads `texlive-collection-fontsrecomm`, the first 30 bytes; and for
the line that names a command of 90 bytes `a`, searched for 89 bytes `a`, the fuzzy
match stored is `Command '` and the 90 bytes, without the package name `pkg`. -/
theorem stored_entry_cut :
    (∃ st', compare_line true "foo".toList "texlive-collection-fontsrecommended".toList
        "/usr/local/bin/foo\n".toList State.initial = Except.ok st' ∧
      st'.exact_entry 0 = some "texlive-collection-fontsrecomm".toList ∧
      "texlive-collection-fontsrecomm".toList ≠ "texlive-collection-fontsrecommended".toList) ∧
    (∃ st', compare_line true (List.replicate 89 'a') "pkg".toList
        ("/usr/local/bin/".toList ++ (List.replicate 89 'a' ++ ['a']) ++ ['\n'])
        State.initial = Except.ok st' ∧
      st'.fuzzy_entry 0 = some ("Command '".toList ++ (List.replicate 89 'a' ++ ['a'])) ∧
      ¬ "pkg".toList <:+: "Command '".toList ++ (List.replicate 89 'a' ++ ['a'])) := by
  constructor
  · have h : (compare_line true "foo".toList "texlive-collection-fontsrecommended".toList
        "/usr/local/bin/foo\n".toList State.initial).toOption.map (fun st => st.exact_entry 0) =
        some (some "texlive-collection-fontsrecomm".toList) := by decide
    cases hs : compare_line true "foo".toList "texlive-collection-fontsrecommended".toList
        "/usr/local/bin/foo\n".toList State.initial with
    | error f => rw [hs] at h; exact absurd h (by simp [Except.toOption])
    | ok st =>
      rw [hs] at h
      simp only [Except.toOption, Option.map_some', Option.some.injEq] at h
      exact ⟨st, rfl, h, by decide⟩
  · obtain ⟨st', h1, h2⟩ := fuzzy_record_without_package true (List.replicate 89 'a')
      (List.length_replicate 89 'a') (not_mem_replicate _ _ _ (by decide))
      (not_mem_replicate _ _ _ (by decide)) (not_mem_replicate _ _ _ (by decide)) 'a'
      (by decide) (by decide) (by decide) "pkg".toList (by decide)
    refine ⟨st', h1, h2, ?_⟩
    intro h
    have hc := h.sublist.count_le 'p'
    rw [List.count_append, List.count_append, List.count_replicate] at hc
    have e1 : List.count 'p' "Command '".toList = 0 := by decide
    have e2 : List.count 'p' "pkg".toList = 1 := by decide
    have e3 : List.count 'p' ['a'] = 0 := by decide
    rw [e1, e2, e3] at hc
    simp at hc

/-- C18: in `get_similarity a b` with `|a| ≤ 127` and `|b| ≤ 127` every cell
`memo[i][j]` of the table holds a value between 0 and `max i j ≤ 127`; storing it in a
`char` does not change it, the increment of the cell `memo[i + 1][j + 1]` does not wrap,
and the table is the one the same loops compute over unbounded integers, with signed
and with unsigned `char`. -/
theorem fillMemo_no_wrap (sgn : Bool) (a b : List Char) (i j : Nat)
    (ha : a.length ≤ 127) (hb : b.length ≤ 127) (hi : i ≤ a.length) (hj : j ≤ b.length) :
    0 ≤ fillMemo sgn a b i j ∧ fillMemo sgn a b i j ≤ max i j ∧ max i j ≤ 127 ∧
    wrapChar sgn (fillMemo sgn a b i j) = fillMemo sgn a b i j ∧
    fillMemo sgn a b i j = fillMemoZ a b i j ∧
    (i < a.length → j < b.length →
      cellStep sgn a b i j (fillMemo sgn a b) = cellStepZ a b i j (fillMemo sgn a b)) := by
  have hr := memoCell_range sgn a b i j (by omega) (by omega)
  have he := fillMemo_eq sgn a b i j hi hj
  refine ⟨by rw [he]; exact hr.1, by rw [he]; exact hr.2, by omega, ?_, ?_, ?_⟩
  · rw [he]
    exact wrapChar_of_range sgn _ hr.1 (by have := hr.2; omega)
  · rw [he, fillMemoZ_eq a b i j hi hj]
    exact memoCell_eq_memoCellZ sgn a b i j (by omega) (by omega)
  · intro hi' hj'
    rw [cellStep_eq, cellStepZ_eq]
    have h1 := memoCell_range sgn a b (i + 1) j (by omega) (by omega)
    have h2 := memoCell_range sgn a b i (j + 1) (by omega) (by omega)
    rw [he, fillMemo_eq sgn a b (i + 1) j (by omega) hj,
      fillMemo_eq sgn a b i (j + 1) hi (by omega)]
    simp only [cellValue, cellValueZ]
    split_ifs <;> first | rfl | (rw [wrapChar_of_range sgn _ (by omega) (by omega)])

/-- Witness for C18: the cell `memo[3][2]` of the table for `chromex` and `chrome`, and
the step that fills `memo[4][3]`. -/
theorem fillMemo_no_wrap_witness :
    0 ≤ fillMemo true "chromex".toList "chrome".toList 3 2 ∧
    fillMemo true "chromex".toList "chrome".toList 3 2 ≤ ((max 3 2 : Nat) : Int) ∧
    fillMemo true "chromex".toList "chrome".toList 3 2 =
      fillMemoZ "chromex".toList "chrome".toList 3 2 ∧
    cellStep true "chromex".toList "chrome".toList 3 2
        (fillMemo true "chromex".toList "chrome".toList) =
      cellStepZ "chromex".toList "chrome".toList 3 2
        (fillMemo true "chromex".toList "chrome".toList) := by
  obtain ⟨h1, h2, _, _, h5, h6⟩ := fillMemo_no_wrap true "chromex".toList "chrome".toList 3 2
    (by decide) (by decide) (by decide) (by decide)
  exact ⟨h1, h2, h5, h6 (by decide) (by decide)⟩

/-- C20: the failing input.  For the one-byte candidate `a` and the target of 257 bytes
`a` the cell `memo[0][256]` holds `256 mod 2^8 = 0`, the diagonal copies it to
`memo[1][257]` and the score is `(1 - 0) / 1 = 1` (with signed `char` already 129 bytes
`a` give the score 129): the line `/usr/local/bin/a` is recorded as a fuzzy match. -/
theorem short_candidate_long_target (sgn : Bool) :
    get_similarity sgn "a".toList (List.replicate 257 'a') = Score.finite 1 ∧
    get_similarity true "a".toList (List.replicate 129 'a') = Score.finite 129 ∧
    ∃ st', compare_line sgn (List.replicate 257 'a') "pkg".toList "/usr/local/bin/a\n".toList
        State.initial = Except.ok st' ∧
      st'.total_exact_matches = 0 ∧ st'.total_fuzzy_matches = 1 := by
  have h1 : get_similarity sgn "a".toList (List.replicate 257 'a') = Score.finite 1 := by
    have := get_similarity_one_vs_run sgn 'a' 256
    rw [show "a".toList = ['a'] from rfl, this]
    cases sgn <;> norm_num [wrapChar]
  refine ⟨h1, ?_, ?_⟩
  · have := get_similarity_one_vs_run true 'a' 128
    rw [show "a".toList = ['a'] from rfl, this]
    norm_num [wrapChar]
  · exact compare_line_fuzzy_a sgn _ (run_ne_single 'a' 256 (by decide))
      (by rw [h1]; exact exceeds_finite _ (by norm_num))

end CommandNotFound
